import Mathlib

/-!
Compressibility predictor (`compr.go`).

A shallow embedding of the entropy-based compressibility predictor.

Modelling conventions
* Go `byte` is `Fin 256`; Go `int` is `Int` (no value that occurs exceeds
  `len(data)`, so 64-bit wrap-around never comes into play).
* Go `float64` is an arbitrary field `R` (ordered where `<` is used); `math.Log`
  is a parameter.  Instantiated with `ℝ` and `Real.log` this is the exact-real
  reading of the program, instantiated with `ℚ` everything is executable.
* A slice or array is a `List`; an index expression is fallible and a failing
  one (a Go run-time panic) makes the embedded function return `none`.
* The global `logLut` is passed explicitly; the values produced by
  `rand.Intn` are supplied by a function `rnd` from the iteration number.
-/

namespace Compr

/-! ## Constants -/

/-- Constant `pageSize`. -/
def pageSize : Nat := 16384

/-- Constant `hintSize`. -/
def hintSize : Nat := 64

/-- Constant `numHintsToTry`. -/
def numHintsToTry : Nat := 3

/-- Constant `entrThreshold`. -/
def entrThreshold {R : Type} [Field R] : R := 5

/-- Go `byte`. -/
abbrev Byte := Fin 256

/-! ## Indexing and loops -/

/-- Index expression `xs[i]` with an `int` index: `none` when out of range. -/
def getIdx {α : Type} (xs : List α) (i : Int) : Option α :=
  if 0 ≤ i then xs[i.toNat]? else none

/-- Assignment `xs[i] = v` with an `int` index: `none` when out of range. -/
def setIdx {α : Type} (xs : List α) (i : Int) (v : α) : Option (List α) :=
  if 0 ≤ i ∧ i.toNat < xs.length then some (xs.set i.toNat v) else none

/-- Statement `xs[i]++` on a slice of `int`. -/
def incrIdx (xs : List Int) (i : Int) : Option (List Int) :=
  match getIdx xs i with
  | none => none
  | some v => setIdx xs i (v + 1)

/-- Loop `for i := 0; i < n; i++ { body }` over a state, stopping at the first
failing iteration. -/
def forLoop {σ : Type} (n : Nat) (body : σ → Nat → Option σ) (init : σ) : Option σ :=
  (List.range n).foldlM body init

/-! ## Log table -/

/-- Zero value of the global `var logLut [256]float64`. -/
def logLutZero {R : Type} [Field R] : List R := List.replicate 256 0

/-- Function `initLogLut`: fills entries `1 .. numSegs - 1` of the table.  The
loop index stays below `numSegs = 256 = len(logLut)`, so the assignment is
always in range. -/
def initLogLut {R : Type} [Field R] (mathLog : R → R) (logLut : List R) : List R :=
  let l2Bval := mathLog 2
  let numSegs := pageSize / hintSize
  (List.range' 1 (numSegs - 1)).foldl
    (fun lut ind => lut.set ind (mathLog (ind : R) / l2Bval)) logLut

/-! ## Segment sampler -/

/-- Function `initHintArr`. -/
def initHintArr : List Int :=
  let hLen := pageSize / hintSize
  (List.range hLen).foldl (fun arr i => arr.set i (i : Int)) (List.replicate hLen 0)

/-- Function `getRandomSeg`; `segInd` is the value returned by
`rand.Intn(arrLen)`, which panics when `arrLen` is not positive. -/
def getRandomSeg (hintArr : List Int) (segInd : Nat) : Option (Int × List Int) :=
  let arrLen := hintArr.length
  if arrLen = 0 then none
  else
    match hintArr[segInd]? with
    | none => none
    | some segNum =>
      match hintArr[arrLen - 1]? with
      | none => none
      | some last =>
        let hintArr1 := hintArr.set segInd last
        some (segNum, hintArr1.take (arrLen - 1))

/-! ## Bucketed histogram -/

/-- Local variables of `genHist` that change in its main loop. -/
structure HistState where
  /-- Bucket assigned to each byte value, `-1` when not seen yet. -/
  symbol : List Int
  /-- Occurrence count per bucket. -/
  histBuf : List Int
  /-- Next free bucket. -/
  bucket : Int

/-- One iteration of the main loop of `genHist`. -/
def genHistStep (data : List Byte) (startInd : Int) (st : HistState) (i : Nat) :
    Option HistState :=
  match getIdx data (startInd + i) with
  | none => none
  | some curByte =>
    match getIdx st.symbol (curByte.val : Int) with
    | none => none
    | some useBucket =>
      if useBucket = -1 then
        match setIdx st.symbol (curByte.val : Int) st.bucket with
        | none => none
        | some symbol1 =>
          match incrIdx st.histBuf st.bucket with
          | none => none
          | some histBuf1 => some ⟨symbol1, histBuf1, st.bucket + 1⟩
      else
        match incrIdx st.histBuf useBucket with
        | none => none
        | some histBuf1 => some ⟨st.symbol, histBuf1, st.bucket⟩

/-- Function `genHist`. -/
def genHist (data : List Byte) (segNum : Int) : Option (List Int × Int) :=
  let startInd := segNum * hintSize
  let symbol := List.replicate 256 (-1 : Int)
  let histBuf := List.replicate hintSize (0 : Int)
  match forLoop hintSize (genHistStep data startInd) ⟨symbol, histBuf, 0⟩ with
  | none => none
  | some st => some (st.histBuf, st.bucket)

/-! ## Entropy -/

/-- One iteration of the loop of `getEntropy`. -/
def getEntropyStep {R : Type} [Field R] (logLut : List R) (logSampleSize : R)
    (histBuf : List Int) (entr : R) (ind : Nat) : Option R :=
  match getIdx histBuf ind with
  | none => none
  | some thisVal =>
    let thisValF : R := (thisVal : R)
    match getIdx logLut thisVal with
    | none => none
    | some l =>
      let logDiff := l - logSampleSize
      some (entr + thisValF * logDiff)

/-- Function `getEntropy`. -/
def getEntropy {R : Type} [Field R] (logLut : List R) (histBuf : List Int) (coreSet : Int) :
    Option R :=
  match getIdx logLut hintSize with
  | none => none
  | some logSampleSize =>
    match forLoop coreSet.toNat (getEntropyStep logLut logSampleSize histBuf) 0 with
    | none => none
    | some entr => some ((-1) * entr / (hintSize : R))

/-! ## Predictor -/

/-- Local variables of `comprPredict` that change in its loop. -/
structure PredState (R : Type) where
  /-- Entropies collected so far. -/
  retEntr : List R
  /-- Segment numbers not drawn yet. -/
  hintArr : List Int
  /-- Number of sub-segments below the threshold. -/
  succ : Int

/-- One iteration of the loop of `comprPredict`. -/
def comprPredictStep {R : Type} [LinearOrderedField R] (logLut : List R) (data : List Byte)
    (rnd : Nat → Nat) (st : PredState R) (i : Nat) : Option (PredState R) :=
  match getRandomSeg st.hintArr (rnd i) with
  | none => none
  | some (segNum, hintArr) =>
    match genHist data segNum with
    | none => none
    | some (histBuf, coreSet) =>
      match getEntropy logLut histBuf coreSet with
      | none => none
      | some entr =>
        match setIdx st.retEntr i entr with
        | none => none
        | some retEntr =>
          some ⟨retEntr, hintArr, if entr < entrThreshold then st.succ + 1 else st.succ⟩

/-- Function `comprPredict`; `rnd i` is the random index drawn in iteration `i`. -/
def comprPredict {R : Type} [LinearOrderedField R] (logLut : List R) (data : List Byte)
    (rnd : Nat → Nat) : Option (Bool × List R) :=
  let retEntr : List R := List.replicate numHintsToTry 0
  let hintArr := initHintArr
  match forLoop numHintsToTry (comprPredictStep logLut data rnd) ⟨retEntr, hintArr, 0⟩ with
  | none => none
  | some st => if st.succ > 1 then some (true, st.retEntr) else some (false, st.retEntr)

/-- Byte buffer built by `calcIdealEntropy`: `defChars[ind] = byte(ind)`. -/
def defChars : List Byte :=
  (List.range hintSize).foldl (fun arr ind => arr.set ind (Fin.ofNat ind))
    (List.replicate hintSize 0)

/-- Function `calcIdealEntropy`, returning the value it prints. -/
def calcIdealEntropy {R : Type} [Field R] (logLut : List R) : Option R :=
  match genHist defChars 0 with
  | none => none
  | some (histBuf, coreSet) => getEntropy logLut histBuf coreSet

/-- Function `doInit` restricted to the log table and the self check: the table
after `initLogLut` and the value printed by `calcIdealEntropy`. -/
def doInit {R : Type} [Field R] (mathLog : R → R) : List R × Option R :=
  let logLut := initLogLut mathLog logLutZero
  (logLut, calcIdealEntropy logLut)

/-! ## Driver loop of `main` -/

/-- Error value returned by `fId1.Read`. -/
inductive ReadErr where
  /-- No error (`nil`). -/
  | nil
  /-- End of input (`io.EOF`). -/
  | eof
  /-- Any other error. -/
  | other
  deriving DecidableEq

/-- What the environment supplies during one iteration of the loop of `main`:
the bytes that `Read` stores at the start of the buffer (their number is the
returned `count`), the error it returns, and the values that `rand.Intn`
returns inside `comprPredict`. -/
structure IterInput where
  /-- Bytes stored by `Read`; `count` is their number. -/
  bytes : List Byte
  /-- Error returned by `Read`. -/
  err : ReadErr
  /-- Random indices drawn by `comprPredict` in this iteration. -/
  rnd : Nat → Nat

/-- Variables of `main` that change in its loop.  `history` is a ghost
variable: it records `(predict, comprCount)` of every page that went through
the counters and is never read by the program. -/
structure MainState where
  /-- The page buffer `data`. -/
  data : List Byte
  /-- Counter `goodPredict`. -/
  goodPredict : Int
  /-- Counter `badPredict`. -/
  badPredict : Int
  /-- Counter `pageCount`. -/
  pageCount : Int
  /-- Ghost: verdict and compressed size of the pages counted so far. -/
  history : List (Bool × Int)

/-- Function `printPredict` as far as it can fail: it reads `retEntr[0]`,
`retEntr[1]` and `retEntr[2]`. -/
def printPredict {R : Type} (retEntr : List R) : Option Unit :=
  match retEntr[0]?, retEntr[1]?, retEntr[2]? with
  | some _, some _, some _ => some ()
  | _, _, _ => none

/-- One iteration of the loop of `main`.  The result is the new state and
whether the loop goes on (`false` after a `break`); `none` is a panic.
`comprPage` is the external compression round trip: the compressed length, or
`none` when it reports an error or panics. -/
def mainStep {R : Type} [LinearOrderedField R] (comprPage : List Byte → Option Int)
    (logLut : List R) (st : MainState) (inp : IterInput) : Option (MainState × Bool) :=
  let data := inp.bytes ++ st.data.drop inp.bytes.length
  let count : Int := inp.bytes.length
  if count = 0 ∨ inp.err = ReadErr.eof then
    some (⟨data, st.goodPredict, st.badPredict, st.pageCount, st.history⟩, false)
  else if inp.err ≠ ReadErr.nil then none
  else
    match comprPage data with
    | none => none
    | some comprCount =>
      let compressible : Bool := decide (comprCount ≤ ((pageSize / 2 : Nat) : Int))
      match comprPredict logLut data inp.rnd with
      | none => none
      | some (predict, retEntr) =>
        let goodPredict :=
          if predict = true then (if compressible = true then st.goodPredict + 1 else st.goodPredict)
          else (if compressible = true then st.goodPredict else st.goodPredict + 1)
        let badPredict :=
          if predict = true then (if compressible = true then st.badPredict else st.badPredict + 1)
          else (if compressible = true then st.badPredict + 1 else st.badPredict)
        let doPrint : Bool :=
          if predict = true then (if compressible = true then false else true)
          else (if compressible = true then true else false)
        match (if doPrint = true then printPredict retEntr else some ()) with
        | none => none
        | some _ =>
          let pageCount := st.pageCount + 1
          some (⟨data, goodPredict, badPredict, pageCount,
            st.history ++ [(predict, comprCount)]⟩, decide (¬ pageCount ≥ 1000))

/-- The loop of `main` run on the inputs of its successive iterations.  When
the list is used up the state reached so far is returned. -/
def mainLoop {R : Type} [LinearOrderedField R] (comprPage : List Byte → Option Int)
    (logLut : List R) : List IterInput → MainState → Option MainState
  | [], st => some st
  | inp :: rest, st =>
    match mainStep comprPage logLut st inp with
    | none => none
    | some (st1, true) => mainLoop comprPage logLut rest st1
    | some (st1, false) => some st1

/-- State of `main` when it enters its loop: `data := make([]byte, pageSize)`
and the counters at their zero value. -/
def mainInit : MainState := ⟨List.replicate pageSize 0, 0, 0, 0, []⟩

/-! ## Specification-side notions -/

/-- The sub-segment number `segNum` of a buffer: its `hintSize` bytes from
offset `segNum * hintSize`. -/
def subSegment (data : List Byte) (segNum : Nat) : List Byte :=
  (data.drop (segNum * hintSize)).take hintSize

/-- The distinct values of a list in order of first appearance: scan from the
left and append every value that has not been seen before. -/
def firstAppear {α : Type} [DecidableEq α] (l : List α) : List α :=
  l.foldl (fun acc b => if b ∈ acc then acc else acc ++ [b]) []

/-- Number of occurrences in `l` of its `k`-th distinct value (in order of
first appearance), and `0` when `l` has no more than `k` distinct values. -/
def histAt (l : List Byte) (k : Nat) : Nat :=
  match (firstAppear l)[k]? with
  | some b => l.count b
  | none => 0

/-- Buffer of 128 bytes `0,0,0,1,1,1,2,...` used to instantiate the theorems. -/
def sampleData : List Byte := (List.range 128).map (fun i => Fin.ofNat (i / 3))

/-- Page of 16384 zero bytes. -/
def zeroPage : List Byte := List.replicate pageSize 0

/-- Page whose byte `i` is `i mod 256`. -/
def identityPage : List Byte := (List.range pageSize).map (fun i => Fin.ofNat i)

/-- Entropy that one iteration of `comprPredict` computes for the segment
number it has drawn: `getEntropy` applied to the result of `genHist`. -/
def segEntropy {R : Type} [Field R] (logLut : List R) (data : List Byte) (segNum : Int) :
    Option R :=
  match genHist data segNum with
  | none => none
  | some (histBuf, coreSet) => getEntropy logLut histBuf coreSet

/-- The sampler part of one iteration of `comprPredict`: the statement
`segNum, hintArr = getRandomSeg(hintArr)`, with the drawn segment numbers
collected in the first component. -/
def drawStep (rnd : Nat → Nat) (st : List Int × List Int) (i : Nat) :
    Option (List Int × List Int) :=
  match getRandomSeg st.2 (rnd i) with
  | none => none
  | some (segNum, hintArr) => some (st.1 ++ [segNum], hintArr)

/-- The segment numbers drawn by the first `n` iterations of `comprPredict`
(in drawing order), with the array of the numbers not drawn yet. -/
def drawSegs (rnd : Nat → Nat) (n : Nat) : Option (List Int × List Int) :=
  forLoop n (drawStep rnd) ([], initHintArr)

/-- Agreement of a verdict with the ground truth `comprCount <= pageSize / 2`. -/
def agrees (p : Bool × Int) : Bool :=
  p.1 == decide (p.2 ≤ ((pageSize / 2 : Nat) : Int))

/-- Inputs of two iterations of the loop of `main`: a full page of zero bytes,
then end of input. -/
def sampleInputs : List IterInput :=
  [⟨zeroPage, ReadErr.nil, fun i => i⟩, ⟨[], ReadErr.eof, fun i => i⟩]

/-- Input of an iteration whose read is short: 100 bytes and no error. -/
def shortRead : IterInput := ⟨List.replicate 100 0, ReadErr.nil, fun i => i⟩

/-! ## Loop invariants -/

/-- Invariant of the main loop of `genHist`: the state after the bytes `p`
have been processed. -/
structure HistInv (p : List Byte) (st : HistState) : Prop where
  symbol_len : st.symbol.length = 256
  hist_len : st.histBuf.length = hintSize
  bucket_eq : st.bucket = ((firstAppear p).length : Int)
  symbol_eq : ∀ b : Byte, st.symbol[b.val]? =
    some (if b ∈ p then (((firstAppear p).indexOf b : Nat) : Int) else -1)
  hist_eq : ∀ k, k < hintSize → st.histBuf[k]? = some ((histAt p k : Nat) : Int)

/-- Invariant of the loop of `comprPredict` after `i` iterations. -/
structure PredInv {R : Type} [LinearOrderedField R] (i : Nat) (st : PredState R) : Prop where
  entr_len : st.retEntr.length = numHintsToTry
  hint_len : st.hintArr.length = 256 - i
  hint_mem : ∀ x ∈ st.hintArr, 0 ≤ x ∧ x < 256
  succ_eq : st.succ = (((st.retEntr.take i).countP (fun e => decide (e < entrThreshold)) : Nat) : Int)

/-- Invariant of the loop of `main`: the buffer keeps its size and the
counters count the pages recorded in the ghost history. -/
structure MainInv (st : MainState) : Prop where
  data_len : st.data.length = pageSize
  good_eq : st.goodPredict = ((st.history.countP agrees : Nat) : Int)
  bad_eq : st.badPredict = ((st.history.countP (fun p => !agrees p) : Nat) : Int)
  count_eq : st.pageCount = ((st.history.length : Nat) : Int)

/-! ## Loops -/

theorem forLoop_zero {σ : Type} (body : σ → Nat → Option σ) (init : σ) :
    forLoop 0 body init = some init := by
  simp [forLoop]

theorem forLoop_succ {σ : Type} (n : Nat) (body : σ → Nat → Option σ) (init : σ) :
    forLoop (n + 1) body init = (forLoop n body init).bind (fun s => body s n) := by
  simp [forLoop, List.range_succ, List.foldlM_append]

/-- Loop invariant rule: an invariant that holds initially and is carried over
by every iteration (which must succeed) holds for the final state, and the
loop succeeds. -/
theorem forLoop_inv {σ : Type} (body : σ → Nat → Option σ) (Inv : Nat → σ → Prop)
    (n : Nat) (init : σ) (h0 : Inv 0 init)
    (hstep : ∀ i s, i < n → Inv i s → ∃ s', body s i = some s' ∧ Inv (i + 1) s') :
    ∃ s, forLoop n body init = some s ∧ Inv n s := by
  induction n with
  | zero => exact ⟨init, forLoop_zero body init, h0⟩
  | succ m ih =>
    obtain ⟨s, hs, hinv⟩ := ih (fun i s hi h => hstep i s (Nat.lt_succ_of_lt hi) h)
    obtain ⟨s', hs', hinv'⟩ := hstep m s (Nat.lt_succ_self m) hinv
    exact ⟨s', by rw [forLoop_succ, hs]; simpa using hs', hinv'⟩

/-! ## Indexing -/

theorem getIdx_natCast {α : Type} (xs : List α) (i : Nat) : getIdx xs (i : Int) = xs[i]? := by
  simp [getIdx]

theorem setIdx_natCast {α : Type} (xs : List α) (i : Nat) (v : α) (h : i < xs.length) :
    setIdx xs (i : Int) v = some (xs.set i v) := by
  simp [setIdx, h]

theorem incrIdx_natCast (xs : List Int) (i : Nat) (v : Int) (h : xs[i]? = some v) :
    incrIdx xs (i : Int) = some (xs.set i (v + 1)) := by
  have hlt : i < xs.length := by
    by_contra hc
    rw [List.getElem?_eq_none (Nat.le_of_not_lt hc)] at h
    exact Option.noConfusion h
  simp [incrIdx, getIdx_natCast, h, setIdx_natCast, hlt]

/-! ## First-appearance order -/

theorem firstAppear_nil {α : Type} [DecidableEq α] : firstAppear ([] : List α) = [] := rfl

theorem firstAppear_concat {α : Type} [DecidableEq α] (l : List α) (b : α) :
    firstAppear (l ++ [b]) =
      if b ∈ firstAppear l then firstAppear l else firstAppear l ++ [b] := by
  simp [firstAppear, List.foldl_append]

theorem mem_firstAppear {α : Type} [DecidableEq α] (l : List α) :
    ∀ a, a ∈ firstAppear l ↔ a ∈ l := by
  induction l using List.reverseRecOn with
  | nil => intro a; simp [firstAppear_nil]
  | append_singleton l b ih =>
    intro a
    rw [firstAppear_concat]
    by_cases hb : b ∈ firstAppear l
    · rw [if_pos hb, ih a, List.mem_append, List.mem_singleton]
      constructor
      · exact Or.inl
      · rintro (h | h)
        · exact h
        · rw [h]; exact (ih b).1 hb
    · rw [if_neg hb, List.mem_append, List.mem_append, ih a]

theorem nodup_firstAppear {α : Type} [DecidableEq α] (l : List α) :
    (firstAppear l).Nodup := by
  induction l using List.reverseRecOn with
  | nil => simp [firstAppear_nil]
  | append_singleton l b ih =>
    rw [firstAppear_concat]
    by_cases hb : b ∈ firstAppear l
    · rw [if_pos hb]; exact ih
    · rw [if_neg hb]
      exact List.Nodup.append ih (List.nodup_singleton b) (by simpa using hb)

theorem length_firstAppear_le {α : Type} [DecidableEq α] (l : List α) :
    (firstAppear l).length ≤ l.length := by
  induction l using List.reverseRecOn with
  | nil => simp [firstAppear_nil]
  | append_singleton l b ih =>
    rw [firstAppear_concat]
    by_cases hb : b ∈ firstAppear l
    · rw [if_pos hb]; simp only [List.length_append, List.length_singleton]; omega
    · rw [if_neg hb]; simp only [List.length_append, List.length_singleton]; omega

theorem length_firstAppear_eq_card {α : Type} [DecidableEq α] (l : List α) :
    (firstAppear l).length = l.toFinset.card := by
  rw [← List.toFinset_card_of_nodup (nodup_firstAppear l)]
  congr 1
  ext a
  simp [mem_firstAppear]

theorem firstAppear_perm_dedup {α : Type} [DecidableEq α] (l : List α) :
    (firstAppear l).Perm l.dedup := by
  rw [List.perm_ext_iff_of_nodup (nodup_firstAppear l) (List.nodup_dedup l)]
  intro a
  simp [mem_firstAppear]

/-- The counts of the distinct values add up to the length of the list. -/
theorem sum_count_firstAppear {α : Type} [DecidableEq α] (l : List α) :
    ((firstAppear l).map (fun b => l.count b)).sum = l.length := by
  rw [((firstAppear_perm_dedup l).map (fun b => l.count b)).sum_eq]
  exact List.sum_map_count_dedup_eq_length l

theorem getElem?_eq_some_iff_indexOf {α : Type} [DecidableEq α] {l : List α} (hl : l.Nodup)
    (k : Nat) (c : α) : l[k]? = some c ↔ c ∈ l ∧ l.indexOf c = k := by
  constructor
  · intro h
    obtain ⟨hk, hc⟩ := List.getElem?_eq_some_iff.1 h
    subst hc
    exact ⟨List.getElem_mem hk, List.indexOf_getElem hl k hk⟩
  · rintro ⟨hc, hk⟩
    rw [← hk]
    exact List.getElem?_indexOf hc

/-! ## Histogram of a prefix extended by one byte -/

theorem histAt_of_length_le (p : List Byte) (k : Nat) (h : (firstAppear p).length ≤ k) :
    histAt p k = 0 := by
  simp [histAt, List.getElem?_eq_none h]

theorem histAt_concat_old (p : List Byte) (b : Byte) (hb : b ∈ p) (k : Nat) :
    histAt (p ++ [b]) k =
      if k = (firstAppear p).indexOf b then histAt p k + 1 else histAt p k := by
  have hfa : b ∈ firstAppear p := (mem_firstAppear p b).2 hb
  unfold histAt
  rw [firstAppear_concat, if_pos hfa]
  cases hk : (firstAppear p)[k]? with
  | none =>
    have h1 : (firstAppear p).length ≤ k := List.getElem?_eq_none_iff.1 hk
    have h2 : (firstAppear p).indexOf b < (firstAppear p).length := List.indexOf_lt_length.2 hfa
    have h3 : k ≠ (firstAppear p).indexOf b := by omega
    simp [h3]
  | some c =>
    have hc := (getElem?_eq_some_iff_indexOf (nodup_firstAppear p) k c).1 hk
    by_cases hcb : c = b
    · subst hcb
      simp [hc.2, List.count_append]
    · have h3 : k ≠ (firstAppear p).indexOf b := by
        intro h
        apply hcb
        have := (getElem?_eq_some_iff_indexOf (nodup_firstAppear p) k b).2 ⟨hfa, h.symm⟩
        rw [hk] at this
        exact Option.some.inj this
      have h4 : ¬ (b = c) := fun h => hcb h.symm
      simp [h3, List.count_append, List.count_singleton, h4]

theorem histAt_concat_new (p : List Byte) (b : Byte) (hb : b ∉ p) (k : Nat) :
    histAt (p ++ [b]) k = if k = (firstAppear p).length then 1 else histAt p k := by
  have hfa : b ∉ firstAppear p := fun h => hb ((mem_firstAppear p b).1 h)
  unfold histAt
  rw [firstAppear_concat, if_neg hfa]
  by_cases hk : k = (firstAppear p).length
  · subst hk
    simp [List.count_append, List.count_eq_zero_of_not_mem hb]
  · rw [if_neg hk]
    by_cases hlt : k < (firstAppear p).length
    · rw [List.getElem?_append_left hlt]
      cases hc : (firstAppear p)[k]? with
      | none => rfl
      | some c =>
        have hcm := ((getElem?_eq_some_iff_indexOf (nodup_firstAppear p) k c).1 hc).1
        have h4 : ¬ (b = c) := fun h => hfa (h ▸ hcm)
        simp [List.count_append, List.count_singleton, h4]
    · have h1 : (firstAppear p ++ [b])[k]? = none :=
        List.getElem?_eq_none (by simp only [List.length_append, List.length_singleton]; omega)
      have h2 : (firstAppear p)[k]? = none := List.getElem?_eq_none (by omega)
      rw [h1, h2]

/-! ## The main loop of `genHist` -/

theorem histInv_init :
    HistInv [] ⟨List.replicate 256 (-1 : Int), List.replicate hintSize (0 : Int), 0⟩ where
  symbol_len := List.length_replicate _ _
  hist_len := List.length_replicate _ _
  bucket_eq := by simp [firstAppear_nil]
  symbol_eq := by
    intro b
    show (List.replicate 256 (-1 : Int))[b.val]? = _
    rw [List.getElem?_replicate, if_pos b.isLt]
    simp
  hist_eq := by
    intro k hk
    show (List.replicate hintSize (0 : Int))[k]? = _
    rw [List.getElem?_replicate, if_pos hk]
    simp [histAt, firstAppear_nil]

theorem genHistStep_inv (data : List Byte) (startInd : Int) (p : List Byte) (b : Byte)
    (st : HistState) (i : Nat) (hdata : getIdx data (startInd + i) = some b)
    (hp : p.length < hintSize) (h : HistInv p st) :
    ∃ st', genHistStep data startInd st i = some st' ∧ HistInv (p ++ [b]) st' := by
  have hfalen := length_firstAppear_le p
  have hsym := h.symbol_eq b
  by_cases hb : b ∈ p
  · -- a byte value seen before
    have hfa : b ∈ firstAppear p := (mem_firstAppear p b).2 hb
    have hj : (firstAppear p).indexOf b < (firstAppear p).length := List.indexOf_lt_length.2 hfa
    rw [if_pos hb] at hsym
    have hhist := h.hist_eq ((firstAppear p).indexOf b) (by omega)
    have hne : ¬ ((((firstAppear p).indexOf b : Nat) : Int) = -1) := by omega
    refine ⟨⟨st.symbol, st.histBuf.set ((firstAppear p).indexOf b)
      (((histAt p ((firstAppear p).indexOf b) : Nat) : Int) + 1), st.bucket⟩, ?_, ?_⟩
    · simp only [genHistStep, hdata, getIdx_natCast, hsym, if_neg hne,
        incrIdx_natCast _ _ _ hhist]
    · refine ⟨h.symbol_len, by simpa using h.hist_len, ?_, ?_, ?_⟩
      · rw [firstAppear_concat, if_pos hfa]; exact h.bucket_eq
      · intro c
        rw [firstAppear_concat, if_pos hfa, h.symbol_eq c]
        by_cases hc : c ∈ p
        · simp [hc]
        · have hcb : c ≠ b := fun e => hc (e ▸ hb)
          simp [hc, hcb]
      · intro k hk
        show (st.histBuf.set _ _)[k]? = _
        rw [histAt_concat_old p b hb k, List.getElem?_set]
        by_cases hkj : (firstAppear p).indexOf b = k
        · have hlt : (firstAppear p).indexOf b < st.histBuf.length := by
            rw [h.hist_len]; omega
          rw [if_pos hkj, if_pos hlt, if_pos hkj.symm, hkj]
          push_cast; rfl
        · rw [if_neg hkj, if_neg (fun e => hkj e.symm), h.hist_eq k hk]
  · -- a new byte value
    have hfa : b ∉ firstAppear p := fun e => hb ((mem_firstAppear p b).1 e)
    rw [if_neg hb] at hsym
    have hblt : b.val < st.symbol.length := by rw [h.symbol_len]; exact b.isLt
    have hhist := h.hist_eq (firstAppear p).length (by omega)
    rw [histAt_of_length_le p _ (le_refl _), Nat.cast_zero] at hhist
    refine ⟨⟨st.symbol.set b.val ((firstAppear p).length : Int),
      st.histBuf.set (firstAppear p).length (0 + 1), ((firstAppear p).length : Int) + 1⟩, ?_, ?_⟩
    · simp only [genHistStep, hdata, getIdx_natCast, hsym, if_true, h.bucket_eq,
        setIdx_natCast _ _ _ hblt, incrIdx_natCast _ _ _ hhist]
    · refine ⟨by simpa using h.symbol_len, by simpa using h.hist_len, ?_, ?_, ?_⟩
      · rw [firstAppear_concat, if_neg hfa]; simp
      · intro c
        show (st.symbol.set _ _)[c.val]? = _
        rw [firstAppear_concat, if_neg hfa, List.getElem?_set]
        by_cases hcb : c = b
        · subst hcb
          simp [hblt, List.indexOf_append_of_not_mem hfa]
        · have hv : ¬ (b.val = c.val) := fun e => hcb (Fin.ext e.symm)
          rw [if_neg hv, h.symbol_eq c]
          by_cases hc : c ∈ p
          · have hcf : c ∈ firstAppear p := (mem_firstAppear p c).2 hc
            simp [hc, List.indexOf_append_of_mem hcf]
          · simp [hc, hcb]
      · intro k hk
        show (st.histBuf.set _ _)[k]? = _
        rw [histAt_concat_new p b hb k, List.getElem?_set]
        by_cases hkj : (firstAppear p).length = k
        · have hlt : (firstAppear p).length < st.histBuf.length := by
            rw [h.hist_len]; omega
          rw [if_pos hkj, if_pos hlt, if_pos hkj.symm]; simp
        · rw [if_neg hkj, if_neg (fun e => hkj e.symm), h.hist_eq k hk]

theorem length_subSegment (data : List Byte) (segNum : Nat)
    (h : (segNum + 1) * hintSize ≤ data.length) : (subSegment data segNum).length = hintSize := by
  simp only [subSegment, List.length_take, List.length_drop]
  have : (segNum + 1) * hintSize = segNum * hintSize + hintSize := by ring
  omega

theorem getIdx_subSegment (data : List Byte) (segNum i : Nat) (hi : i < hintSize) :
    getIdx data ((segNum : Int) * (hintSize : Int) + (i : Int)) = (subSegment data segNum)[i]? := by
  have hc : (segNum : Int) * (hintSize : Int) + (i : Int) = ((segNum * hintSize + i : Nat) : Int) := by
    push_cast; rfl
  rw [hc, getIdx_natCast, subSegment, List.getElem?_take_of_lt hi, List.getElem?_drop]

/-- Functional description of `genHist` on an in-range sub-segment: it
succeeds, the bucket count is the number of distinct values, and bucket `k`
holds `histAt` of the sub-segment. -/
theorem genHist_spec (data : List Byte) (segNum : Nat)
    (h : (segNum + 1) * hintSize ≤ data.length) :
    ∃ histBuf, genHist data (segNum : Int) =
        some (histBuf, ((firstAppear (subSegment data segNum)).length : Int)) ∧
      histBuf.length = hintSize ∧
      ∀ k, k < hintSize →
        histBuf[k]? = some ((histAt (subSegment data segNum) k : Nat) : Int) := by
  have hlen := length_subSegment data segNum h
  obtain ⟨st, hst, hinv⟩ := forLoop_inv (genHistStep data ((segNum : Int) * (hintSize : Int)))
    (fun i st => HistInv ((subSegment data segNum).take i) st) hintSize
    ⟨List.replicate 256 (-1 : Int), List.replicate hintSize (0 : Int), 0⟩
    (by show HistInv (List.take 0 _) _; rw [List.take_zero]; exact histInv_init)
    (by
      intro i st hi hinv
      show ∃ s', _ ∧ HistInv (List.take (i + 1) _) s'
      have hb : (subSegment data segNum)[i]? = some ((subSegment data segNum)[i]) :=
        List.getElem?_eq_getElem (by omega)
      have hstep := genHistStep_inv data ((segNum : Int) * (hintSize : Int))
        ((subSegment data segNum).take i) _ st i
        ((getIdx_subSegment data segNum i hi).trans hb)
        (by rw [List.length_take]; omega) hinv
      rw [List.take_succ, hb]
      exact hstep)
  have htake : (subSegment data segNum).take hintSize = subSegment data segNum :=
    List.take_of_length_le (by omega)
  rw [htake] at hinv
  refine ⟨st.histBuf, ?_, hinv.hist_len, hinv.hist_eq⟩
  simp only [genHist, hst, hinv.bucket_eq]

/-- The distinct values are listed by position of first occurrence. -/
theorem firstAppear_pairwise {α : Type} [DecidableEq α] (l : List α) :
    (firstAppear l).Pairwise (fun a b => l.indexOf a < l.indexOf b) := by
  induction l using List.reverseRecOn with
  | nil => simp [firstAppear_nil]
  | append_singleton l b ih =>
    have hold : (firstAppear l).Pairwise
        (fun a c => (l ++ [b]).indexOf a < (l ++ [b]).indexOf c) := by
      refine ih.imp_of_mem ?_
      intro a c ha hc hlt
      rw [List.indexOf_append_of_mem ((mem_firstAppear l a).1 ha),
        List.indexOf_append_of_mem ((mem_firstAppear l c).1 hc)]
      exact hlt
    rw [firstAppear_concat]
    by_cases hb : b ∈ firstAppear l
    · rw [if_pos hb]; exact hold
    · rw [if_neg hb, List.pairwise_append]
      refine ⟨hold, List.pairwise_singleton _ _, ?_⟩
      intro a ha c hc
      rw [List.mem_singleton] at hc
      subst hc
      have hbl : c ∉ l := fun e => hb ((mem_firstAppear l c).2 e)
      have hal : a ∈ l := (mem_firstAppear l a).1 ha
      rw [List.indexOf_append_of_mem hal, List.indexOf_append_of_not_mem hbl]
      have := List.indexOf_lt_length.2 hal
      omega

theorem histAt_pos (seg : List Byte) (k : Nat) (hk : k < (firstAppear seg).length) :
    ∃ b, (firstAppear seg)[k]? = some b ∧ histAt seg k = seg.count b ∧
      1 ≤ seg.count b ∧ seg.count b ≤ seg.length := by
  have hb : (firstAppear seg)[k]? = some ((firstAppear seg)[k]) := List.getElem?_eq_getElem hk
  refine ⟨_, hb, by simp [histAt, hb], ?_, List.count_le_length _ _⟩
  have hmem : (firstAppear seg)[k] ∈ seg := (mem_firstAppear seg _).1 (List.getElem_mem hk)
  exact List.count_pos_iff.2 hmem

/-- The occupied buckets of the histogram are the counts of the distinct values. -/
theorem take_hist_eq (seg : List Byte) (histBuf : List Int)
    (hlen : histBuf.length = hintSize) (hseg : seg.length ≤ hintSize)
    (hk : ∀ k, k < hintSize → histBuf[k]? = some ((histAt seg k : Nat) : Int)) :
    histBuf.take (firstAppear seg).length =
      (firstAppear seg).map (fun b => ((seg.count b : Nat) : Int)) := by
  have hfa := length_firstAppear_le seg
  apply List.ext_getElem?
  intro k
  by_cases hlt : k < (firstAppear seg).length
  · obtain ⟨b, hb, hkb, _⟩ := histAt_pos seg k hlt
    rw [List.getElem?_take_of_lt hlt, hk k (by omega), List.getElem?_map, hb, hkb]
    rfl
  · rw [List.getElem?_eq_none (by rw [List.length_take]; omega),
      List.getElem?_eq_none (by rw [List.length_map]; omega)]

/-! ## The loop of `getEntropy` -/

/-- Closed form of `getEntropy`: when the first `coreSet` counts are `c k`
and the table holds `lg` at those counts and at `hintSize`, the function
succeeds with the scaled sum. -/
theorem getEntropy_eq {R : Type} [Field R] (logLut : List R) (histBuf : List Int)
    (coreSet : Int) (c : Nat → Nat) (lg : Nat → R)
    (hS : logLut[hintSize]? = some (lg hintSize))
    (hc : ∀ k, k < coreSet.toNat → histBuf[k]? = some ((c k : Nat) : Int))
    (hl : ∀ k, k < coreSet.toNat → logLut[c k]? = some (lg (c k))) :
    getEntropy logLut histBuf coreSet =
      some ((-1) * (∑ k ∈ Finset.range coreSet.toNat, (c k : R) * (lg (c k) - lg hintSize))
        / (hintSize : R)) := by
  obtain ⟨e, he, hinv⟩ := forLoop_inv (getEntropyStep logLut (lg hintSize) histBuf)
    (fun i (e : R) => e = ∑ k ∈ Finset.range i, (c k : R) * (lg (c k) - lg hintSize))
    coreSet.toNat 0 (by simp)
    (by
      intro i e hi hinv
      refine ⟨e + (c i : R) * (lg (c i) - lg hintSize), ?_, ?_⟩
      · simp only [getEntropyStep, getIdx_natCast, hc i hi, hl i hi, Int.cast_natCast]
      · show _ = ∑ k ∈ Finset.range (i + 1), _
        rw [Finset.sum_range_succ, ← hinv])
  have hS' : getIdx logLut ((hintSize : Nat) : Int) = some (lg hintSize) := by
    rw [getIdx_natCast]; exact hS
  simp only [getEntropy, hS', he, hinv]

/-! ## The log table -/

theorem foldl_set_range' {α : Type} (f : Nat → α) (k : Nat) :
    ∀ (s : Nat) (t : List α) (n : Nat),
      ((List.range' s k).foldl (fun lut i => lut.set i (f i)) t)[n]? =
        if s ≤ n ∧ n < s + k ∧ n < t.length then some (f n) else t[n]? := by
  induction k with
  | zero =>
    intro s t n
    have : ¬ (s ≤ n ∧ n < s + 0 ∧ n < t.length) := by omega
    rw [if_neg this]
    rfl
  | succ k ih =>
    intro s t n
    rw [List.range'_succ, List.foldl_cons, ih (s + 1) (t.set s (f s)) n, List.length_set,
      List.getElem?_set]
    by_cases h1 : s + 1 ≤ n ∧ n < s + 1 + k ∧ n < t.length
    · have h2 : s ≤ n ∧ n < s + (k + 1) ∧ n < t.length := by omega
      rw [if_pos h1, if_pos h2]
    · rw [if_neg h1]
      by_cases h3 : s = n
      · subst h3
        by_cases h4 : s < t.length
        · have h2 : s ≤ s ∧ s < s + (k + 1) ∧ s < t.length := by omega
          rw [if_pos rfl, if_pos h4, if_pos h2]
        · have h2 : ¬ (s ≤ s ∧ s < s + (k + 1) ∧ s < t.length) := by omega
          rw [if_pos rfl, if_neg h4, if_neg h2, List.getElem?_eq_none (by omega)]
      · have h2 : ¬ (s ≤ n ∧ n < s + (k + 1) ∧ n < t.length) := by omega
        rw [if_neg h3, if_neg h2]

theorem foldl_set_length {α : Type} (f : Nat → α) (l : List Nat) :
    ∀ t : List α, (l.foldl (fun lut i => lut.set i (f i)) t).length = t.length := by
  induction l with
  | nil => intro t; rfl
  | cons a l ih => intro t; rw [List.foldl_cons, ih, List.length_set]

theorem length_initLogLut {R : Type} [Field R] (mathLog : R → R) (logLut : List R) :
    (initLogLut mathLog logLut).length = logLut.length :=
  foldl_set_length (fun ind => mathLog (ind : R) / mathLog 2) _ logLut

/-- Entries of the table after `initLogLut`: `1 .. 255` are filled, everything
else is left as it was. -/
theorem getElem?_initLogLut {R : Type} [Field R] (mathLog : R → R) (logLut : List R) (n : Nat) :
    (initLogLut mathLog logLut)[n]? =
      if 1 ≤ n ∧ n < 256 ∧ n < logLut.length then some (mathLog (n : R) / mathLog 2)
      else logLut[n]? := by
  have h := foldl_set_range' (fun ind => mathLog ((ind : Nat) : R) / mathLog 2) 255 1 logLut n
  have e : (1 : Nat) + 255 = 256 := rfl
  rw [e] at h
  exact h

theorem sum_range_getElem? {α : Type} (f : α → Nat) (l : List α) :
    (∑ k ∈ Finset.range l.length, (match l[k]? with | some b => f b | none => 0)) =
      (l.map f).sum := by
  induction l using List.reverseRecOn with
  | nil => simp
  | append_singleton l a ih =>
    rw [List.length_append, List.length_singleton, Finset.sum_range_succ, List.map_append,
      List.sum_append, ← ih]
    congr 1
    · apply Finset.sum_congr rfl
      intro k hk
      rw [List.getElem?_append_left (Finset.mem_range.1 hk)]
    · simp

/-- The occupied buckets of the histogram of a list add up to its length. -/
theorem sum_histAt (seg : List Byte) :
    (∑ k ∈ Finset.range (firstAppear seg).length, histAt seg k) = seg.length := by
  have h := sum_range_getElem? (fun b => seg.count b) (firstAppear seg)
  rw [sum_count_firstAppear] at h
  rw [← h]
  apply Finset.sum_congr rfl
  intro k _
  unfold histAt
  cases (firstAppear seg)[k]? <;> rfl

theorem forLoop_congr {σ : Type} (n : Nat) (body1 body2 : σ → Nat → Option σ) (init : σ)
    (h : ∀ i s, i < n → body1 s i = body2 s i) :
    forLoop n body1 init = forLoop n body2 init := by
  induction n with
  | zero => rw [forLoop_zero, forLoop_zero]
  | succ m ih =>
    rw [forLoop_succ, forLoop_succ, ih (fun i s hi => h i s (Nat.lt_succ_of_lt hi))]
    cases forLoop m body2 init with
    | none => rfl
    | some s => exact h m s (Nat.lt_succ_self m)

/-- The result of `getEntropy` depends on the table only through the entry
`hintSize` and the entries at the first `coreSet` counts. -/
theorem getEntropy_congr {R : Type} [Field R] (l1 l2 : List R) (histBuf : List Int)
    (coreSet : Int) (hS : getIdx l1 hintSize = getIdx l2 hintSize)
    (hc : ∀ k, k < coreSet.toNat → ∃ c, histBuf[k]? = some c ∧ getIdx l1 c = getIdx l2 c) :
    getEntropy l1 histBuf coreSet = getEntropy l2 histBuf coreSet := by
  unfold getEntropy
  rw [hS]
  cases getIdx l2 (hintSize : Int) with
  | none => rfl
  | some S =>
    have hloop := forLoop_congr coreSet.toNat (getEntropyStep l1 S histBuf)
      (getEntropyStep l2 S histBuf) 0 (by
        intro i e hi
        obtain ⟨c, hci, hcl⟩ := hc i hi
        simp only [getEntropyStep, getIdx_natCast, hci, hcl])
    simp only [hloop]

/-! ## Claims about the histogram -/

theorem length_sampleData : sampleData.length = 128 := by
  simp [sampleData]

/-- C2 (histogram completeness): for every buffer `data` and segment index
`segNum` with `(segNum+1)*64 ≤ len(data)`, `genHist data segNum` returns
`(counts, B)` with `counts[0] + ... + counts[B-1] = 64`. -/
theorem genHist_sum_counts (data : List Byte) (segNum : Nat)
    (h : (segNum + 1) * 64 ≤ data.length) :
    ∃ counts B, genHist data (segNum : Int) = some (counts, B) ∧ 0 ≤ B ∧
      (counts.take B.toNat).sum = 64 := by
  obtain ⟨histBuf, hgen, hlen, hk⟩ := genHist_spec data segNum h
  have hseg := length_subSegment data segNum h
  refine ⟨histBuf, _, hgen, Int.natCast_nonneg _, ?_⟩
  rw [Int.toNat_natCast, take_hist_eq _ histBuf hlen (le_of_eq hseg) hk]
  have hsum := sum_count_firstAppear (subSegment data segNum)
  rw [hseg] at hsum
  have hcast := congrArg (fun n : Nat => (n : Int)) hsum
  simp only [Nat.cast_list_sum, List.map_map] at hcast
  exact hcast

/-- Instance of C2 on the second sub-segment of `sampleData`. -/
theorem genHist_sum_counts_witness :
    (1 + 1) * 64 ≤ sampleData.length ∧
    ∃ counts B, genHist sampleData ((1 : Nat) : Int) = some (counts, B) ∧ 0 ≤ B ∧
      (counts.take B.toNat).sum = 64 :=
  ⟨by rw [length_sampleData], genHist_sum_counts sampleData 1 (by rw [length_sampleData])⟩

/-- C3 (bucket count): for every in-range sub-segment the `B` returned by
`genHist` is the number of distinct byte values among its 64 bytes, and
`1 ≤ B ≤ min(S, 256) = 64`. -/
theorem genHist_bucket_count (data : List Byte) (segNum : Nat)
    (h : (segNum + 1) * 64 ≤ data.length) :
    ∃ counts B, genHist data (segNum : Int) = some (counts, B) ∧
      B = ((subSegment data segNum).toFinset.card : Int) ∧
      1 ≤ B ∧ B ≤ ((min hintSize 256 : Nat) : Int) ∧ min hintSize 256 = 64 := by
  obtain ⟨histBuf, hgen, _, _⟩ := genHist_spec data segNum h
  have hseg := length_subSegment data segNum h
  have hle := length_firstAppear_le (subSegment data segNum)
  have hpos : 1 ≤ (firstAppear (subSegment data segNum)).length := by
    have hne : subSegment data segNum ≠ [] := by
      intro e
      rw [e] at hseg
      exact absurd hseg (by decide)
    obtain ⟨a, ha⟩ := List.exists_mem_of_ne_nil _ hne
    exact List.length_pos_of_mem ((mem_firstAppear _ a).2 ha)
  have hmin : min hintSize 256 = 64 := by decide
  refine ⟨histBuf, _, hgen, ?_, ?_, ?_, hmin⟩
  · rw [length_firstAppear_eq_card]
  · exact_mod_cast hpos
  · rw [hmin]
    have : (firstAppear (subSegment data segNum)).length ≤ 64 := by
      rw [hseg] at hle; exact hle
    exact_mod_cast this

/-- Instance of C3 on the second sub-segment of `sampleData`. -/
theorem genHist_bucket_count_witness :
    ∃ counts B, genHist sampleData ((1 : Nat) : Int) = some (counts, B) ∧
      B = ((subSegment sampleData 1).toFinset.card : Int) ∧
      1 ≤ B ∧ B ≤ ((min hintSize 256 : Nat) : Int) ∧ min hintSize 256 = 64 :=
  genHist_bucket_count sampleData 1 (by rw [length_sampleData])

/-- C4 (first-appearance order): for every in-range sub-segment `genHist`
returns a count vector of length 64 and `B` the number of distinct values;
for `k < B`, `counts[k]` is the number of occurrences in the sub-segment of
its `k`-th distinct byte value in order of first appearance, and
`counts[k] = 0` for `B ≤ k < 64`.  (`firstAppear` is duplicate-free, has the
members of the list and is ordered by first occurrence: `nodup_firstAppear`,
`mem_firstAppear`, `firstAppear_pairwise`.) -/
theorem genHist_first_appearance (data : List Byte) (segNum : Nat)
    (h : (segNum + 1) * 64 ≤ data.length) :
    ∃ counts B, genHist data (segNum : Int) = some (counts, B) ∧
      counts.length = 64 ∧
      B = ((firstAppear (subSegment data segNum)).length : Int) ∧
      (∀ k : Nat, (k : Int) < B → ∃ b, (firstAppear (subSegment data segNum))[k]? = some b ∧
        counts[k]? = some (((subSegment data segNum).count b : Nat) : Int)) ∧
      (∀ k : Nat, B ≤ (k : Int) → k < 64 → counts[k]? = some 0) := by
  obtain ⟨histBuf, hgen, hlen, hk⟩ := genHist_spec data segNum h
  have hseg := length_subSegment data segNum h
  have hle := length_firstAppear_le (subSegment data segNum)
  refine ⟨histBuf, _, hgen, hlen, rfl, ?_, ?_⟩
  · intro k hkB
    have hkB' : k < (firstAppear (subSegment data segNum)).length := by exact_mod_cast hkB
    obtain ⟨b, hb, hcount, _⟩ := histAt_pos (subSegment data segNum) k hkB'
    exact ⟨b, hb, by rw [hk k (by omega), hcount]⟩
  · intro k hkB hk64
    have hkB' : (firstAppear (subSegment data segNum)).length ≤ k := by exact_mod_cast hkB
    rw [hk k hk64, histAt_of_length_le _ k hkB']
    rfl

/-- Instance of C4 on the second sub-segment of `sampleData`. -/
theorem genHist_first_appearance_witness :
    ∃ counts B, genHist sampleData ((1 : Nat) : Int) = some (counts, B) ∧
      counts.length = 64 ∧
      B = ((firstAppear (subSegment sampleData 1)).length : Int) ∧
      (∀ k : Nat, (k : Int) < B → ∃ b, (firstAppear (subSegment sampleData 1))[k]? = some b ∧
        counts[k]? = some (((subSegment sampleData 1).count b : Nat) : Int)) ∧
      (∀ k : Nat, B ≤ (k : Int) → k < 64 → counts[k]? = some 0) :=
  genHist_first_appearance sampleData 1 (by rw [length_sampleData])

/-! ## Claims about the log table and the entropy -/

theorem logb_two_hintSize : Real.logb 2 ((hintSize : Nat) : ℝ) = 6 := by
  have h : ((hintSize : Nat) : ℝ) = 2 ^ (6 : ℕ) := by
    unfold hintSize; norm_num
  rw [h, Real.logb_pow]
  simp

/-- Entries `1 .. 255` of the table built from the real logarithm. -/
theorem getElem?_initLogLut_real (n : Nat) (h1 : 1 ≤ n) (h2 : n < 256) :
    (initLogLut Real.log (logLutZero : List ℝ))[n]? = some (Real.logb 2 (n : ℝ)) := by
  have hlen : (logLutZero : List ℝ).length = 256 := List.length_replicate _ _
  rw [getElem?_initLogLut, if_pos ⟨h1, h2, by rw [hlen]; exact h2⟩, Real.log_div_log]

/-- C9 (log table coverage): after `initLogLut`, `logLut[n] = log2 n` for every
`1 ≤ n ≤ 64`; in particular the entry `logLut[hintSize]` read by `getEntropy`
exists and equals `6`. -/
theorem initLogLut_covers (n : Nat) (h1 : 1 ≤ n) (h2 : n ≤ 64) :
    (initLogLut Real.log (logLutZero : List ℝ))[n]? = some (Real.logb 2 (n : ℝ)) ∧
      getIdx (initLogLut Real.log (logLutZero : List ℝ)) (hintSize : Int) = some 6 := by
  refine ⟨getElem?_initLogLut_real n h1 (by omega), ?_⟩
  rw [getIdx_natCast, getElem?_initLogLut_real hintSize (by decide) (by decide),
    logb_two_hintSize]

/-- Instance of C9 at the last index `n = 64`. -/
theorem initLogLut_covers_witness :
    (initLogLut Real.log (logLutZero : List ℝ))[64]? = some (Real.logb 2 ((64 : Nat) : ℝ)) ∧
      getIdx (initLogLut Real.log (logLutZero : List ℝ)) (hintSize : Int) = some 6 :=
  initLogLut_covers 64 (by decide) (by decide)

/-- C10 (no log of zero): for every in-range sub-segment, every count that
`getEntropy` uses as a table index on the result of `genHist` lies in
`[1, 64]`, and entry `0` of the table is never read: overwriting it does not
change the outcome of `getEntropy`. -/
theorem getEntropy_no_log_zero (data : List Byte) (segNum : Nat)
    (h : (segNum + 1) * 64 ≤ data.length) :
    ∃ counts B, genHist data (segNum : Int) = some (counts, B) ∧
      (∀ k : Nat, (k : Int) < B → ∃ c : Int, counts[k]? = some c ∧ 1 ≤ c ∧ c ≤ 64) ∧
      (∀ (R : Type) [Field R] (logLut : List R) (v : R),
        getEntropy (logLut.set 0 v) counts B = getEntropy logLut counts B) := by
  obtain ⟨histBuf, hgen, hlen, hk⟩ := genHist_spec data segNum h
  have hseg := length_subSegment data segNum h
  have hle := length_firstAppear_le (subSegment data segNum)
  have hrange : ∀ k : Nat, k < (firstAppear (subSegment data segNum)).length →
      ∃ c : Nat, histBuf[k]? = some (c : Int) ∧ 1 ≤ c ∧ c ≤ 64 := by
    intro k hkB
    obtain ⟨b, _, hcount, hpos, hmax⟩ := histAt_pos (subSegment data segNum) k hkB
    refine ⟨(subSegment data segNum).count b, by rw [hk k (by omega), hcount], hpos, ?_⟩
    rw [hseg] at hmax
    exact hmax
  refine ⟨histBuf, _, hgen, ?_, ?_⟩
  · intro k hkB
    obtain ⟨c, hc, h1, h2⟩ := hrange k (by exact_mod_cast hkB)
    exact ⟨c, hc, by exact_mod_cast h1, by exact_mod_cast h2⟩
  · intro R _ logLut v
    apply getEntropy_congr
    · rw [getIdx_natCast, getIdx_natCast, List.getElem?_set_ne (by decide)]
    · intro k hkB
      rw [Int.toNat_natCast] at hkB
      obtain ⟨c, hc, h1, _⟩ := hrange k hkB
      refine ⟨c, hc, ?_⟩
      rw [getIdx_natCast, getIdx_natCast, List.getElem?_set_ne (by omega)]

/-- Instance of C10 on the second sub-segment of `sampleData`. -/
theorem getEntropy_no_log_zero_witness :
    ∃ counts B, genHist sampleData ((1 : Nat) : Int) = some (counts, B) ∧
      (∀ k : Nat, (k : Int) < B → ∃ c : Int, counts[k]? = some c ∧ 1 ≤ c ∧ c ≤ 64) ∧
      (∀ (R : Type) [Field R] (logLut : List R) (v : R),
        getEntropy (logLut.set 0 v) counts B = getEntropy logLut counts B) :=
  getEntropy_no_log_zero sampleData 1 (by rw [length_sampleData])

/-- C5 (entropy formula): with a table holding the exact `log2` on `[1, 64]`
and counts `counts[0..B)` in `[1, 64]`, `getEntropy counts B` is
`-(1/64) * Σ_{k<B} counts[k] * (log2 counts[k] - log2 64)`, and this value is
the Shannon entropy `-Σ p_k * log2 p_k` of `p_k = counts[k] / 64` (the second
equation holds whatever the counts add up to, in particular when they add up
to 64). -/
theorem getEntropy_formula (logLut : List ℝ) (counts : List Int) (B : Int)
    (hlog : ∀ n : Nat, 1 ≤ n → n ≤ 64 → logLut[n]? = some (Real.logb 2 (n : ℝ)))
    (hc : ∀ k : Nat, (k : Int) < B → ∃ c : Int, counts[k]? = some c ∧ 1 ≤ c ∧ c ≤ 64) :
    getEntropy logLut counts B =
        some (-(1 / 64) * ∑ k ∈ Finset.range B.toNat,
          ((counts.getD k 0 : Int) : ℝ) *
            (Real.logb 2 ((counts.getD k 0 : Int) : ℝ) - Real.logb 2 64)) ∧
      -(1 / 64) * ∑ k ∈ Finset.range B.toNat,
          ((counts.getD k 0 : Int) : ℝ) *
            (Real.logb 2 ((counts.getD k 0 : Int) : ℝ) - Real.logb 2 64) =
        -∑ k ∈ Finset.range B.toNat,
          (((counts.getD k 0 : Int) : ℝ) / 64) *
            Real.logb 2 (((counts.getD k 0 : Int) : ℝ) / 64) := by
  have hc' : ∀ k : Nat, k < B.toNat →
      counts[k]? = some (((counts.getD k 0).toNat : Nat) : Int) ∧
        1 ≤ (counts.getD k 0).toNat ∧ (counts.getD k 0).toNat ≤ 64 ∧
        (((counts.getD k 0).toNat : Nat) : ℝ) = ((counts.getD k 0 : Int) : ℝ) ∧
        (1 : ℝ) ≤ ((counts.getD k 0 : Int) : ℝ) := by
    intro k hk
    obtain ⟨c, hck, h1, h2⟩ := hc k (by omega)
    have hget : counts.getD k 0 = c := by simp [hck]
    rw [hget, hck, Int.toNat_of_nonneg (by omega)]
    refine ⟨rfl, by omega, by omega, ?_, by exact_mod_cast h1⟩
    have : (((c.toNat : Nat) : Int) : ℝ) = (c : ℝ) := by rw [Int.toNat_of_nonneg (by omega)]
    exact_mod_cast this
  constructor
  · rw [getEntropy_eq logLut counts B (fun k => (counts.getD k 0).toNat)
      (fun n => Real.logb 2 (n : ℝ)) (hlog 64 (by decide) (by decide))
      (fun k hk => (hc' k hk).1)
      (fun k hk => hlog _ (hc' k hk).2.1 (hc' k hk).2.2.1)]
    congr 1
    have hsum : (∑ k ∈ Finset.range B.toNat, (((counts.getD k 0).toNat : Nat) : ℝ) *
          (Real.logb 2 (((counts.getD k 0).toNat : Nat) : ℝ) - Real.logb 2 ((hintSize : Nat) : ℝ)))
        = ∑ k ∈ Finset.range B.toNat, ((counts.getD k 0 : Int) : ℝ) *
          (Real.logb 2 ((counts.getD k 0 : Int) : ℝ) - Real.logb 2 64) := by
      apply Finset.sum_congr rfl
      intro k hk
      rw [(hc' k (Finset.mem_range.1 hk)).2.2.2.1]
      norm_num [hintSize]
    rw [hsum]
    norm_num [hintSize]
    ring
  · rw [Finset.mul_sum, ← Finset.sum_neg_distrib]
    apply Finset.sum_congr rfl
    intro k hk
    have hpos := (hc' k (Finset.mem_range.1 hk)).2.2.2.2
    rw [Real.logb_div (by linarith) (by norm_num)]
    ring

/-- Instance of C5: the real table after `initLogLut` and the counts `32, 32`. -/
theorem getEntropy_formula_witness :
    getEntropy (initLogLut Real.log (logLutZero : List ℝ)) [32, 32] 2 =
        some (-(1 / 64) * ∑ k ∈ Finset.range (2 : Int).toNat,
          ((([32, 32] : List Int).getD k 0 : Int) : ℝ) *
            (Real.logb 2 ((([32, 32] : List Int).getD k 0 : Int) : ℝ) - Real.logb 2 64)) ∧
      -(1 / 64) * ∑ k ∈ Finset.range (2 : Int).toNat,
          ((([32, 32] : List Int).getD k 0 : Int) : ℝ) *
            (Real.logb 2 ((([32, 32] : List Int).getD k 0 : Int) : ℝ) - Real.logb 2 64) =
        -∑ k ∈ Finset.range (2 : Int).toNat,
          (((([32, 32] : List Int).getD k 0 : Int) : ℝ) / 64) *
            Real.logb 2 (((([32, 32] : List Int).getD k 0 : Int) : ℝ) / 64) :=
  getEntropy_formula (initLogLut Real.log (logLutZero : List ℝ)) [32, 32] 2
    (fun n h1 h2 => getElem?_initLogLut_real n h1 (by omega))
    (fun k hk => by
      have hk' : k = 0 ∨ k = 1 := by omega
      rcases hk' with e | e <;> subst e <;> exact ⟨32, rfl, by decide, by decide⟩)

/-! ## Entropy of a sub-segment -/

/-- Entropy that the program computes for an in-range sub-segment, with the
table built from the real logarithm: `genHist` and `getEntropy` succeed and
the value is the scaled sum over the occupied buckets. -/
theorem segEntropy_real (data : List Byte) (segNum : Nat)
    (h : (segNum + 1) * hintSize ≤ data.length) :
    ∃ counts, genHist data (segNum : Int) =
        some (counts, ((firstAppear (subSegment data segNum)).length : Int)) ∧
      getEntropy (initLogLut Real.log (logLutZero : List ℝ)) counts
          ((firstAppear (subSegment data segNum)).length : Int) =
        some ((-1) * (∑ k ∈ Finset.range (firstAppear (subSegment data segNum)).length,
          ((histAt (subSegment data segNum) k : Nat) : ℝ) *
            (Real.logb 2 ((histAt (subSegment data segNum) k : Nat) : ℝ) - 6)) / 64) := by
  obtain ⟨histBuf, hgen, hlen, hk⟩ := genHist_spec data segNum h
  have hseg := length_subSegment data segNum h
  have hle := length_firstAppear_le (subSegment data segNum)
  refine ⟨histBuf, hgen, ?_⟩
  have hrange : ∀ k, k < (firstAppear (subSegment data segNum)).length →
      1 ≤ histAt (subSegment data segNum) k ∧ histAt (subSegment data segNum) k < 256 := by
    intro k hkB
    obtain ⟨b, _, hcount, hpos, hmax⟩ := histAt_pos (subSegment data segNum) k hkB
    rw [hcount]
    rw [hseg] at hmax
    exact ⟨hpos, lt_of_le_of_lt hmax (by decide)⟩
  rw [getEntropy_eq (initLogLut Real.log (logLutZero : List ℝ)) histBuf _
    (fun k => histAt (subSegment data segNum) k) (fun n => Real.logb 2 (n : ℝ))
    (getElem?_initLogLut_real hintSize (by decide) (by decide))
    (fun k hkB => hk k (by rw [Int.toNat_natCast] at hkB; omega))
    (fun k hkB => by
      rw [Int.toNat_natCast] at hkB
      exact getElem?_initLogLut_real _ (hrange k hkB).1 (hrange k hkB).2)]
  rw [Int.toNat_natCast, logb_two_hintSize]
  norm_num [hintSize]

/-- A bucket term of the entropy sum is not positive, and it is at least
`-6` times the count. -/
theorem term_bounds (c : Nat) (h1 : 1 ≤ c) (h2 : c ≤ 64) :
    (c : ℝ) * (Real.logb 2 (c : ℝ) - 6) ≤ 0 ∧ -6 * (c : ℝ) ≤ (c : ℝ) * (Real.logb 2 (c : ℝ) - 6) := by
  have hc1 : (1 : ℝ) ≤ (c : ℝ) := by exact_mod_cast h1
  have hc2 : (c : ℝ) ≤ 64 := by exact_mod_cast h2
  have hlo : 0 ≤ Real.logb 2 (c : ℝ) := Real.logb_nonneg (by norm_num) hc1
  have hhi : Real.logb 2 (c : ℝ) ≤ 6 := by
    have := Real.logb_le_logb_of_le (b := 2) (by norm_num) (by linarith) hc2
    have e : Real.logb 2 (64 : ℝ) = 6 := by
      have := logb_two_hintSize
      norm_num [hintSize] at this
      exact this
    rw [e] at this
    exact this
  constructor
  · exact mul_nonpos_of_nonneg_of_nonpos (by linarith) (by linarith)
  · nlinarith

/-- A bucket term of the entropy sum vanishes exactly for the count `64`. -/
theorem term_eq_zero_iff (c : Nat) (h1 : 1 ≤ c) :
    (c : ℝ) * (Real.logb 2 (c : ℝ) - 6) = 0 ↔ c = 64 := by
  have hc1 : (1 : ℝ) ≤ (c : ℝ) := by exact_mod_cast h1
  have e : Real.logb 2 (64 : ℝ) = 6 := by
    have := logb_two_hintSize
    norm_num [hintSize] at this
    exact this
  constructor
  · intro h0
    rcases mul_eq_zero.1 h0 with h | h
    · linarith
    · have hlog : Real.logb 2 (c : ℝ) = Real.logb 2 (64 : ℝ) := by rw [e]; linarith
      have hinj := Real.logb_injOn_pos (b := 2) (by norm_num)
        (Set.mem_Ioi.2 (by linarith : (0 : ℝ) < (c : ℝ)))
        (Set.mem_Ioi.2 (by norm_num : (0 : ℝ) < 64)) hlog
      exact_mod_cast hinj
  · intro hc
    subst hc
    push_cast
    rw [e]
    ring

theorem histAt_range (seg : List Byte) (hseg : seg.length = hintSize) (k : Nat)
    (hk : k < (firstAppear seg).length) : 1 ≤ histAt seg k ∧ histAt seg k ≤ 64 := by
  obtain ⟨b, _, hcount, hpos, hmax⟩ := histAt_pos seg k hk
  rw [hcount]
  rw [hseg] at hmax
  exact ⟨hpos, hmax⟩

/-- C6 (entropy range): for every in-range sub-segment the entropy
`H = getEntropy (genHist data segNum)`, computed with the table of exact real
logarithms, satisfies `0 ≤ H ≤ log2 (min S 256) = 6`. -/
theorem entropy_range (data : List Byte) (segNum : Nat)
    (h : (segNum + 1) * 64 ≤ data.length) :
    ∃ counts B H, genHist data (segNum : Int) = some (counts, B) ∧
      getEntropy (initLogLut Real.log (logLutZero : List ℝ)) counts B = some H ∧
      0 ≤ H ∧ H ≤ Real.logb 2 ((min hintSize 256 : Nat) : ℝ) ∧
      Real.logb 2 ((min hintSize 256 : Nat) : ℝ) = 6 := by
  obtain ⟨counts, hgen, hent⟩ := segEntropy_real data segNum h
  have hseg := length_subSegment data segNum h
  have hmin : min hintSize 256 = hintSize := by decide
  have hterm := fun k (hk : k ∈ Finset.range (firstAppear (subSegment data segNum)).length) =>
    term_bounds (histAt (subSegment data segNum) k)
      (histAt_range _ hseg k (Finset.mem_range.1 hk)).1
      (histAt_range _ hseg k (Finset.mem_range.1 hk)).2
  have hup := Finset.sum_nonpos (fun k hk => (hterm k hk).1)
  have hlow := Finset.sum_le_sum (fun k hk => (hterm k hk).2)
  have hsum : (∑ k ∈ Finset.range (firstAppear (subSegment data segNum)).length,
      ((histAt (subSegment data segNum) k : Nat) : ℝ)) = 64 := by
    have := sum_histAt (subSegment data segNum)
    rw [hseg] at this
    have hcast := congrArg (fun n : Nat => (n : ℝ)) this
    simp only [Nat.cast_sum] at hcast
    rw [hcast]
    norm_num [hintSize]
  rw [← Finset.mul_sum, hsum] at hlow
  refine ⟨counts, _, _, hgen, hent, ?_, ?_, ?_⟩
  · linarith
  · rw [hmin, logb_two_hintSize]
    linarith
  · rw [hmin, logb_two_hintSize]

/-- Instance of C6 on the second sub-segment of `sampleData`. -/
theorem entropy_range_witness :
    ∃ counts B H, genHist sampleData ((1 : Nat) : Int) = some (counts, B) ∧
      getEntropy (initLogLut Real.log (logLutZero : List ℝ)) counts B = some H ∧
      0 ≤ H ∧ H ≤ Real.logb 2 ((min hintSize 256 : Nat) : ℝ) ∧
      Real.logb 2 ((min hintSize 256 : Nat) : ℝ) = 6 :=
  entropy_range sampleData 1 (by rw [length_sampleData])

/-- C7 (zero entropy): for every in-range sub-segment the entropy
`getEntropy (genHist data segNum)` is `0` if and only if all 64 bytes of the
sub-segment are equal. -/
theorem entropy_zero_iff_constant (data : List Byte) (segNum : Nat)
    (h : (segNum + 1) * 64 ≤ data.length) :
    ∃ counts B H, genHist data (segNum : Int) = some (counts, B) ∧
      getEntropy (initLogLut Real.log (logLutZero : List ℝ)) counts B = some H ∧
      (H = 0 ↔ ∃ b, subSegment data segNum = List.replicate 64 b) := by
  obtain ⟨counts, hgen, hent⟩ := segEntropy_real data segNum h
  have hseg := length_subSegment data segNum h
  have hterm := fun k (hk : k ∈ Finset.range (firstAppear (subSegment data segNum)).length) =>
    term_bounds (histAt (subSegment data segNum) k)
      (histAt_range _ hseg k (Finset.mem_range.1 hk)).1
      (histAt_range _ hseg k (Finset.mem_range.1 hk)).2
  have hzero := Finset.sum_eq_zero_iff_of_nonpos (fun k hk => (hterm k hk).1)
  refine ⟨counts, _, _, hgen, hent, ?_⟩
  constructor
  · intro hH
    have hS : (∑ k ∈ Finset.range (firstAppear (subSegment data segNum)).length,
        ((histAt (subSegment data segNum) k : Nat) : ℝ) *
          (Real.logb 2 ((histAt (subSegment data segNum) k : Nat) : ℝ) - 6)) = 0 := by
      linarith
    have hall := hzero.1 hS
    have hne : subSegment data segNum ≠ [] := by
      intro e
      rw [e] at hseg
      exact absurd hseg (by decide)
    obtain ⟨a, ha⟩ := List.exists_mem_of_ne_nil _ hne
    have hpos : 0 < (firstAppear (subSegment data segNum)).length :=
      List.length_pos_of_mem ((mem_firstAppear _ a).2 ha)
    obtain ⟨b, _, hcount, hb1, _⟩ := histAt_pos (subSegment data segNum) 0 hpos
    have h64 := (term_eq_zero_iff _ (histAt_range _ hseg 0 hpos).1).1
      (hall 0 (Finset.mem_range.2 hpos))
    rw [hcount] at h64
    refine ⟨b, ?_⟩
    rw [List.eq_replicate_iff]
    refine ⟨hseg, ?_⟩
    have hlen : List.count b (subSegment data segNum) = (subSegment data segNum).length := by
      rw [h64, hseg]; rfl
    intro x hx
    exact ((List.count_eq_length.1 hlen) x hx).symm
  · rintro ⟨b, hb⟩
    have hS : (∑ k ∈ Finset.range (firstAppear (subSegment data segNum)).length,
        ((histAt (subSegment data segNum) k : Nat) : ℝ) *
          (Real.logb 2 ((histAt (subSegment data segNum) k : Nat) : ℝ) - 6)) = 0 := by
      apply Finset.sum_eq_zero
      intro k hk
      have hk' := Finset.mem_range.1 hk
      obtain ⟨c, hc, hcount, _, _⟩ := histAt_pos (subSegment data segNum) k hk'
      have hcm : c ∈ subSegment data segNum :=
        (mem_firstAppear _ c).1
          ((getElem?_eq_some_iff_indexOf (nodup_firstAppear _) k c).1 hc).1
      have hcb : c = b := by
        rw [hb] at hcm
        exact List.eq_of_mem_replicate hcm
      have h64 : histAt (subSegment data segNum) k = 64 := by
        rw [hcount, hcb, hb, List.count_replicate_self]
      exact (term_eq_zero_iff _ (histAt_range _ hseg k hk').1).2 h64
    rw [hS]
    norm_num

/-- Instance of C7 on the second sub-segment of `sampleData`. -/
theorem entropy_zero_iff_constant_witness :
    ∃ counts B H, genHist sampleData ((1 : Nat) : Int) = some (counts, B) ∧
      getEntropy (initLogLut Real.log (logLutZero : List ℝ)) counts B = some H ∧
      (H = 0 ↔ ∃ b, subSegment sampleData 1 = List.replicate 64 b) :=
  entropy_zero_iff_constant sampleData 1 (by rw [length_sampleData])

/-- Entropy of a sub-segment without repeated bytes. -/
theorem segEntropy_nodup (data : List Byte) (segNum : Nat)
    (h : (segNum + 1) * hintSize ≤ data.length) (hnd : (subSegment data segNum).Nodup) :
    ∃ counts B, genHist data (segNum : Int) = some (counts, B) ∧
      getEntropy (initLogLut Real.log (logLutZero : List ℝ)) counts B = some 6 := by
  obtain ⟨counts, hgen, hent⟩ := segEntropy_real data segNum h
  have hseg := length_subSegment data segNum h
  have hone : ∀ k, k < (firstAppear (subSegment data segNum)).length →
      histAt (subSegment data segNum) k = 1 := by
    intro k hk
    obtain ⟨c, hc, hcount, _, _⟩ := histAt_pos (subSegment data segNum) k hk
    have hcm : c ∈ subSegment data segNum := (mem_firstAppear _ c).1
      ((getElem?_eq_some_iff_indexOf (nodup_firstAppear _) k c).1 hc).1
    rw [hcount, List.count_eq_one_of_mem hnd hcm]
  have hlen : (firstAppear (subSegment data segNum)).length = 64 := by
    have hs := sum_histAt (subSegment data segNum)
    rw [Finset.sum_congr rfl (fun k hk => hone k (Finset.mem_range.1 hk)), hseg] at hs
    simpa using hs
  have hS : (∑ k ∈ Finset.range (firstAppear (subSegment data segNum)).length,
      ((histAt (subSegment data segNum) k : Nat) : ℝ) *
        (Real.logb 2 ((histAt (subSegment data segNum) k : Nat) : ℝ) - 6)) = 64 * (-6) := by
    rw [Finset.sum_congr rfl (fun k hk => by
      rw [hone k (Finset.mem_range.1 hk)] :
        ∀ k ∈ Finset.range (firstAppear (subSegment data segNum)).length,
          ((histAt (subSegment data segNum) k : Nat) : ℝ) *
            (Real.logb 2 ((histAt (subSegment data segNum) k : Nat) : ℝ) - 6) =
          ((1 : Nat) : ℝ) * (Real.logb 2 ((1 : Nat) : ℝ) - 6))]
    rw [Finset.sum_const, Finset.card_range, hlen]
    simp
  refine ⟨counts, _, hgen, ?_⟩
  rw [hent, hS]
  norm_num

theorem getElem?_defChars (n : Nat) :
    defChars[n]? = if n < 64 then some (Fin.ofNat n) else none := by
  have h := foldl_set_range' (fun ind => (Fin.ofNat ind : Byte)) hintSize 0
    (List.replicate hintSize 0) n
  rw [← List.range_eq_range'] at h
  unfold defChars
  rw [h, List.length_replicate]
  by_cases hn : n < 64
  · rw [if_pos hn, if_pos ⟨Nat.zero_le n, by simpa [hintSize] using hn, hn⟩]
  · rw [if_neg hn, if_neg (fun e => hn e.2.2), List.getElem?_replicate,
      if_neg (show ¬ n < hintSize from hn)]

theorem length_defChars : defChars.length = 64 := by
  unfold defChars
  rw [foldl_set_length, List.length_replicate]
  rfl

theorem defChars_eq_map : defChars = (List.range 64).map (fun ind => (Fin.ofNat ind : Byte)) := by
  apply List.ext_getElem?
  intro n
  rw [getElem?_defChars, List.getElem?_map]
  by_cases hn : n < 64
  · rw [if_pos hn, List.getElem?_range hn]
    rfl
  · rw [if_neg hn, List.getElem?_eq_none (by rw [List.length_range]; omega)]
    rfl

theorem nodup_defChars : defChars.Nodup := by
  rw [defChars_eq_map]
  refine List.Nodup.map_on ?_ (List.nodup_range 64)
  intro a ha b hb hab
  rw [List.mem_range] at ha hb
  have h := congrArg Fin.val hab
  simp only [Fin.ofNat, Fin.val_mk] at h
  omega

theorem subSegment_defChars : subSegment defChars 0 = defChars := by
  unfold subSegment
  rw [Nat.zero_mul, List.drop_zero, List.take_of_length_le (by rw [length_defChars]; decide)]

/-- C8 (maximal entropy): for every sub-segment whose 64 bytes are pairwise
distinct, `getEntropy (genHist data segNum)` equals `log2 64 = 6`; in
particular the start-up self check `calcIdealEntropy`, run by `doInit` after
`initLogLut` on the bytes `0, 1, ..., 63`, computes `6`. -/
theorem entropy_all_distinct (data : List Byte) (segNum : Nat)
    (h : (segNum + 1) * 64 ≤ data.length) (hnd : (subSegment data segNum).Nodup) :
    (∃ counts B, genHist data (segNum : Int) = some (counts, B) ∧
      getEntropy (initLogLut Real.log (logLutZero : List ℝ)) counts B =
        some (Real.logb 2 ((hintSize : Nat) : ℝ))) ∧
    Real.logb 2 ((hintSize : Nat) : ℝ) = 6 ∧
    (doInit Real.log).2 = some 6 := by
  refine ⟨?_, logb_two_hintSize, ?_⟩
  · rw [logb_two_hintSize]
    exact segEntropy_nodup data segNum h hnd
  · obtain ⟨counts, B, hgen, hent⟩ := segEntropy_nodup defChars 0
      (by rw [length_defChars]; decide) (by rw [subSegment_defChars]; exact nodup_defChars)
    have hgen' : genHist defChars 0 = some (counts, B) := by
      rw [Nat.cast_zero] at hgen; exact hgen
    have hcalc : calcIdealEntropy (initLogLut Real.log (logLutZero : List ℝ)) = some 6 := by
      unfold calcIdealEntropy
      rw [hgen']
      exact hent
    simp only [doInit]
    exact hcalc

/-- Instance of C8 on the buffer `0, 1, ..., 63` of the self check. -/
theorem entropy_all_distinct_witness :
    (∃ counts B, genHist defChars ((0 : Nat) : Int) = some (counts, B) ∧
      getEntropy (initLogLut Real.log (logLutZero : List ℝ)) counts B =
        some (Real.logb 2 ((hintSize : Nat) : ℝ))) ∧
    Real.logb 2 ((hintSize : Nat) : ℝ) = 6 ∧
    (doInit Real.log).2 = some 6 :=
  entropy_all_distinct defChars 0 (by rw [length_defChars])
    (by rw [subSegment_defChars]; exact nodup_defChars)

/-! ## The segment sampler -/

theorem initHintArr_eq :
    initHintArr = (List.range 256).map (fun (i : Nat) => (i : Int)) := by
  apply List.ext_getElem?
  intro n
  have h := foldl_set_range' (fun i => ((i : Nat) : Int)) (pageSize / hintSize) 0
    (List.replicate (pageSize / hintSize) 0) n
  rw [← List.range_eq_range'] at h
  unfold initHintArr
  rw [h, List.length_replicate, List.getElem?_map]
  have e : pageSize / hintSize = 256 := by decide
  rw [e]
  by_cases hn : n < 256
  · rw [if_pos ⟨Nat.zero_le n, by omega, hn⟩, List.getElem?_range hn]
    rfl
  · rw [if_neg (fun e => hn e.2.2), List.getElem?_replicate, if_neg hn,
      List.getElem?_eq_none (by rw [List.length_range]; omega)]
    rfl

theorem length_initHintArr : initHintArr.length = 256 := by
  rw [initHintArr_eq, List.length_map, List.length_range]

theorem mem_initHintArr (x : Int) : x ∈ initHintArr ↔ 0 ≤ x ∧ x < 256 := by
  rw [initHintArr_eq, List.mem_map]
  constructor
  · rintro ⟨n, hn, rfl⟩
    rw [List.mem_range] at hn
    omega
  · rintro ⟨h0, h1⟩
    exact ⟨x.toNat, by rw [List.mem_range]; omega, by omega⟩

/-- Outcome of one draw with an in-range random index. -/
theorem getRandomSeg_eq (hintArr : List Int) (segInd : Nat) (h : segInd < hintArr.length) :
    ∃ segNum last, hintArr[segInd]? = some segNum ∧
      hintArr[hintArr.length - 1]? = some last ∧
      getRandomSeg hintArr segInd =
        some (segNum, (hintArr.set segInd last).take (hintArr.length - 1)) := by
  have h1 : hintArr[segInd]? = some (hintArr[segInd]) := List.getElem?_eq_getElem h
  have h2 : hintArr[hintArr.length - 1]? = some (hintArr[hintArr.length - 1]) :=
    List.getElem?_eq_getElem (by omega)
  refine ⟨_, _, h1, h2, ?_⟩
  have hne : ¬ (hintArr.length = 0) := by omega
  simp only [getRandomSeg, if_neg hne, h1, h2]

theorem getRandomSeg_mem (hintArr : List Int) (segInd : Nat) (h : segInd < hintArr.length) :
    ∃ segNum rest, getRandomSeg hintArr segInd = some (segNum, rest) ∧ segNum ∈ hintArr ∧
      rest.length = hintArr.length - 1 ∧ ∀ x ∈ rest, x ∈ hintArr := by
  obtain ⟨segNum, last, h1, h2, hget⟩ := getRandomSeg_eq hintArr segInd h
  refine ⟨_, _, hget, List.getElem?_mem h1, ?_, ?_⟩
  · rw [List.length_take, List.length_set]; omega
  · intro x hx
    rcases List.mem_or_eq_of_mem_set (List.mem_of_mem_take hx) with hm | hm
    · exact hm
    · rw [hm]; exact List.getElem?_mem h2

/-! ## The predictor -/

/-- With any table of 256 entries, `genHist` followed by `getEntropy` succeeds
on every in-range sub-segment. -/
theorem segEntropy_defined {R : Type} [Field R] (logLut : List R) (hlut : logLut.length = 256)
    (data : List Byte) (segNum : Nat) (h : (segNum + 1) * hintSize ≤ data.length) :
    ∃ counts B entr, genHist data (segNum : Int) = some (counts, B) ∧
      getEntropy logLut counts B = some entr := by
  obtain ⟨histBuf, hgen, hlen, hk⟩ := genHist_spec data segNum h
  have hseg := length_subSegment data segNum h
  have hle := length_firstAppear_le (subSegment data segNum)
  have hlg : ∀ n, n < 256 → logLut[n]? = some ((logLut[n]?).getD 0) := by
    intro n hn
    rw [List.getElem?_eq_getElem (by rw [hlut]; exact hn)]
    rfl
  refine ⟨histBuf, _, _, hgen, getEntropy_eq logLut histBuf _
    (fun k => histAt (subSegment data segNum) k) (fun n => (logLut[n]?).getD 0)
    (hlg hintSize (by decide))
    (fun k hkB => hk k (by rw [Int.toNat_natCast] at hkB; omega))
    (fun k hkB => by
      rw [Int.toNat_natCast] at hkB
      exact hlg _ (lt_of_le_of_lt (histAt_range _ hseg k hkB).2 (by decide)))⟩

theorem comprPredictStep_inv {R : Type} [LinearOrderedField R] (logLut : List R)
    (hlut : logLut.length = 256) (data : List Byte) (hpage : data.length = pageSize)
    (rnd : Nat → Nat) (i : Nat) (hi : i < numHintsToTry) (hrnd : rnd i < 256 - i)
    (st : PredState R) (hinv : PredInv i st) :
    ∃ st', comprPredictStep logLut data rnd st i = some st' ∧ PredInv (i + 1) st' := by
  have hi3 : i < 3 := hi
  obtain ⟨segNum, rest, hget, hmem, hrlen, hrmem⟩ :=
    getRandomSeg_mem st.hintArr (rnd i) (by rw [hinv.hint_len]; exact hrnd)
  have hseg := hinv.hint_mem segNum hmem
  have hcast : ((segNum.toNat : Nat) : Int) = segNum := Int.toNat_of_nonneg hseg.1
  have hin : (segNum.toNat + 1) * hintSize ≤ data.length := by
    rw [hpage]
    have : segNum.toNat < 256 := by omega
    unfold hintSize pageSize
    omega
  obtain ⟨counts, B, entr, hgen, hent⟩ := segEntropy_defined logLut hlut data segNum.toNat hin
  rw [hcast] at hgen
  have hset : setIdx st.retEntr (i : Int) entr = some (st.retEntr.set i entr) :=
    setIdx_natCast _ _ _ (by rw [hinv.entr_len]; exact hi)
  refine ⟨⟨st.retEntr.set i entr, rest,
    if entr < entrThreshold then st.succ + 1 else st.succ⟩, ?_, ?_⟩
  · simp only [comprPredictStep, hget, hgen, hent, hset]
  · refine ⟨by rw [List.length_set]; exact hinv.entr_len, by rw [hrlen, hinv.hint_len]; omega,
      fun x hx => hinv.hint_mem x (hrmem x hx), ?_⟩
    have htake : (st.retEntr.set i entr).take (i + 1) = st.retEntr.take i ++ [entr] := by
      rw [List.take_succ, List.set_take,
        List.set_eq_of_length_le (by rw [List.length_take]; omega),
        List.getElem?_set_self (by rw [hinv.entr_len]; exact hi)]
      rfl
    show (if entr < entrThreshold then st.succ + 1 else st.succ) = _
    rw [htake, List.countP_append, hinv.succ_eq]
    by_cases he : entr < entrThreshold
    · simp [he]
    · simp [he]

/-- Two of three: with two entries on the same side of a predicate, the
count of entries satisfying it is decided. -/
theorem countP_two_of_three {α : Type} (P : α → Bool) (l : List α) (hl : l.length = 3)
    (i j : Nat) (x y : α) (hij : i ≠ j) (hx : l[i]? = some x) (hy : l[j]? = some y) :
    (P x = true ∧ P y = true → 2 ≤ l.countP P) ∧
      (P x = false ∧ P y = false → ¬ 2 ≤ l.countP P) := by
  obtain ⟨a, b, c, rfl⟩ := List.length_eq_three.1 hl
  have hi : i < 3 := by
    by_contra hc
    rw [List.getElem?_eq_none (by simp; omega)] at hx
    exact Option.noConfusion hx
  have hj : j < 3 := by
    by_contra hc
    rw [List.getElem?_eq_none (by simp; omega)] at hy
    exact Option.noConfusion hy
  have hcount : List.countP P [a, b, c] =
      (if P a then 1 else 0) + (if P b then 1 else 0) + (if P c then 1 else 0) := by
    simp only [List.countP_cons, List.countP_nil]
    omega
  rw [hcount]
  interval_cases i <;> interval_cases j <;>
    simp only [ne_eq, not_true_eq_false, List.getElem?_cons_zero, List.getElem?_cons_succ,
      Option.some.injEq] at hij hx hy <;>
    subst hx <;> subst hy <;>
    (constructor <;> rintro ⟨h1, h2⟩ <;> simp only [h1, h2] <;>
      cases P a <;> cases P b <;> cases P c <;> simp_all)

theorem predInv_init {R : Type} [LinearOrderedField R] (retEntr : List R) (hintArr : List Int)
    (h1 : retEntr.length = numHintsToTry) (h2 : hintArr.length = 256)
    (h3 : ∀ x ∈ hintArr, 0 ≤ x ∧ x < 256) : PredInv 0 ⟨retEntr, hintArr, 0⟩ where
  entr_len := h1
  hint_len := h2
  hint_mem := h3
  succ_eq := by
    show (0 : Int) = ((List.countP _ (List.take 0 retEntr) : Nat) : Int)
    rw [List.take_zero]
    rfl

theorem comprPredict_unfold {R : Type} [LinearOrderedField R] (logLut : List R)
    (data : List Byte) (rnd : Nat → Nat) (retEntr : List R) (hintArr : List Int)
    (h1 : retEntr = List.replicate numHintsToTry 0) (h2 : hintArr = initHintArr)
    (st : PredState R)
    (hst : forLoop numHintsToTry (comprPredictStep logLut data rnd) ⟨retEntr, hintArr, 0⟩ =
      some st) :
    comprPredict logLut data rnd = some (decide (st.succ > 1), st.retEntr) := by
  rw [h1, h2] at hst
  unfold comprPredict
  simp only [hst]
  by_cases h : st.succ > 1
  · simp [h]
  · simp [h]

/-- C1 (majority vote): for every page (16384 bytes) and all in-range random
draw indices, `comprPredict` returns a vector of `K = 3` entropies and a
verdict that is `true` exactly when at least two of the three entropies are
strictly below the threshold `5.0`; hence two entropies on the same side of
the threshold fix the verdict whatever the third one is.  The table may hold
any 256 values. -/
theorem comprPredict_majority {R : Type} [LinearOrderedField R] (logLut : List R)
    (hlut : logLut.length = 256) (data : List Byte) (hpage : data.length = 16384)
    (rnd : Nat → Nat) (hrnd : ∀ i, i < 3 → rnd i < 256 - i) :
    ∃ verdict entr, comprPredict logLut data rnd = some (verdict, entr) ∧
      entr.length = 3 ∧
      (verdict = true ↔ 2 ≤ entr.countP (fun e => decide (e < 5))) ∧
      ∀ (i j : Nat) (ei ej : R), i ≠ j → entr[i]? = some ei → entr[j]? = some ej →
        (ei < 5 ∧ ej < 5 → verdict = true) ∧ (¬ ei < 5 ∧ ¬ ej < 5 → verdict = false) := by
  obtain ⟨st, hst, hinv⟩ := forLoop_inv (comprPredictStep logLut data rnd)
    (fun i st => PredInv i st) numHintsToTry _
    (predInv_init (List.replicate numHintsToTry (0 : R)) initHintArr
      (List.length_replicate _ _) length_initHintArr (fun x hx => (mem_initHintArr x).1 hx))
    (fun i st hi hinv =>
      comprPredictStep_inv logLut hlut data hpage rnd i hi (hrnd i hi) st hinv)
  have hlen : st.retEntr.length = 3 := hinv.entr_len
  have hsucc : st.succ = ((st.retEntr.countP (fun e => decide (e < (5 : R))) : Nat) : Int) := by
    have := hinv.succ_eq
    rw [List.take_of_length_le (by rw [hlen]; exact le_refl _)] at this
    exact this
  have hverdict : ∀ v : Bool, v = decide (st.succ > 1) →
      (v = true ↔ 2 ≤ st.retEntr.countP (fun e => decide (e < (5 : R)))) := by
    intro v hv
    rw [hv, decide_eq_true_iff, hsucc]
    constructor
    · intro h; exact_mod_cast h
    · intro h; exact_mod_cast h
  have hres := comprPredict_unfold logLut data rnd _ _ rfl rfl st hst
  have hv := hverdict _ rfl
  refine ⟨_, _, hres, hlen, hv, ?_⟩
  intro i j ei ej hij hi hj
  have h2 := countP_two_of_three (fun e => decide (e < (5 : R))) st.retEntr hlen i j ei ej hij hi hj
  constructor
  · rintro ⟨h1, h3⟩
    exact hv.2 (h2.1 ⟨decide_eq_true h1, decide_eq_true h3⟩)
  · rintro ⟨h1, h3⟩
    have := h2.2 ⟨decide_eq_false h1, decide_eq_false h3⟩
    cases hd : decide (st.succ > 1) with
    | false => rfl
    | true => exact absurd (hv.1 hd) this

/-- Instance of C1: the all-zero page, a table of 256 rationals and the random
indices `0, 1, 2`. -/
theorem comprPredict_majority_witness :
    ∃ verdict entr, comprPredict (List.replicate 256 (1 : ℚ)) zeroPage (fun i => i) =
        some (verdict, entr) ∧
      entr.length = 3 ∧
      (verdict = true ↔ 2 ≤ entr.countP (fun e => decide (e < 5))) ∧
      ∀ (i j : Nat) (ei ej : ℚ), i ≠ j → entr[i]? = some ei → entr[j]? = some ej →
        (ei < 5 ∧ ej < 5 → verdict = true) ∧ (¬ ei < 5 ∧ ¬ ej < 5 → verdict = false) :=
  comprPredict_majority (List.replicate 256 (1 : ℚ)) (List.length_replicate _ _) zeroPage
    (List.length_replicate _ _) (fun i => i) (fun i hi => by show i < 256 - i; omega)

/-! ## Swap-and-pop -/

/-- Dropping the last element after moving it to the front leaves a
permutation of the list without its head position. -/
theorem take_cons_last_perm {α : Type} (t : List α) (last : α) (a : α)
    (hlast : (a :: t)[t.length]? = some last) :
    (a :: (last :: t).take t.length).Perm (a :: t) := by
  cases t using List.reverseRecOn with
  | nil => simp
  | append_singleton t b =>
    have hb : last = b := by
      have h1 : (a :: (t ++ [b]))[(t ++ [b]).length]? = some b := by
        rw [List.length_append, List.length_singleton, List.getElem?_cons_succ,
          List.getElem?_append_right (le_refl _)]
        simp
      rw [h1] at hlast
      exact (Option.some.inj hlast).symm
    subst hb
    have h2 : (last :: (t ++ [last])).take (t ++ [last]).length = last :: t := by
      rw [List.length_append, List.length_singleton, List.take_succ_cons,
        List.take_append_of_le_length (le_refl _), List.take_length]
    rw [h2]
    exact List.Perm.cons a (List.perm_append_singleton last t).symm

/-- Swap-and-pop removes exactly one occurrence of the drawn element: the drawn
element followed by the remaining array is a permutation of the array. -/
theorem swapPop_perm {α : Type} (A : List α) :
    ∀ (r : Nat) (x last : α), A[r]? = some x → A[A.length - 1]? = some last →
      (x :: (A.set r last).take (A.length - 1)).Perm A := by
  induction A with
  | nil => intro r x last hx _; simp at hx
  | cons a t ih =>
    intro r x last hx hlast
    cases r with
    | zero =>
      have hxa : x = a := by simpa using hx.symm
      subst hxa
      exact take_cons_last_perm t last x hlast
    | succ r =>
      rw [List.getElem?_cons_succ] at hx
      have hr : r < t.length := by
        by_contra hc
        rw [List.getElem?_eq_none (by omega)] at hx
        exact Option.noConfusion hx
      have hlen : (a :: t).length - 1 = (t.length - 1) + 1 := by
        rw [List.length_cons]; omega
      rw [hlen, List.getElem?_cons_succ] at hlast
      rw [hlen, List.set_cons_succ, List.take_succ_cons]
      exact (List.Perm.swap a x _).trans (List.Perm.cons a (ih r x last hx hlast))

theorem nodup_initHintArr : initHintArr.Nodup := by
  rw [initHintArr_eq]
  refine List.Nodup.map_on ?_ (List.nodup_range 256)
  intro a _ b _ hab
  exact_mod_cast hab

/-- One draw from an array without duplicates. -/
theorem getRandomSeg_nodup (A : List Int) (hA : A.Nodup) (r : Nat) (hr : r < A.length) :
    ∃ x rest, A[r]? = some x ∧ getRandomSeg A r = some (x, rest) ∧ (x :: rest).Perm A ∧
      rest.length = A.length - 1 ∧ rest.Nodup ∧ (∀ y, y ∈ rest ↔ y ∈ A ∧ y ≠ x) := by
  obtain ⟨x, last, hx, hlast, hget⟩ := getRandomSeg_eq A r hr
  have hperm := swapPop_perm A r x last hx hlast
  have hnd : (x :: (A.set r last).take (A.length - 1)).Nodup := hperm.nodup_iff.2 hA
  rw [List.nodup_cons] at hnd
  refine ⟨x, _, hx, hget, hperm, ?_, hnd.2, ?_⟩
  · rw [List.length_take, List.length_set]; omega
  · intro y
    constructor
    · intro hy
      exact ⟨hperm.subset (List.mem_cons_of_mem x hy), fun e => hnd.1 (e ▸ hy)⟩
    · rintro ⟨hy, hne⟩
      rcases List.mem_cons.1 (hperm.symm.subset hy) with h | h
      · exact absurd h hne
      · exact h

/-- C12 (swap-and-pop step): for every duplicate-free array `A` of length
`n ≥ 1` and every index `r < n`, `getRandomSeg` returns `(A[r], A1)` where `A1`
has length `n - 1`, is duplicate-free and holds exactly the elements of `A`
other than `A[r]`; and `initHintArr()` is duplicate-free and holds each index
of `[0, P/S)` exactly once. -/
theorem getRandomSeg_swap_pop (A : List Int) (hA : A.Nodup) (r : Nat) (hr : r < A.length) :
    (∃ x A1, A[r]? = some x ∧ getRandomSeg A r = some (x, A1) ∧
      A1.length = A.length - 1 ∧ A1.Nodup ∧ (∀ y, y ∈ A1 ↔ y ∈ A ∧ y ≠ x)) ∧
    initHintArr.Nodup ∧ initHintArr.length = pageSize / hintSize ∧
    (∀ k : Int, k ∈ initHintArr ↔ 0 ≤ k ∧ k < ((pageSize / hintSize : Nat) : Int)) ∧
    (∀ k : Int, 0 ≤ k → k < ((pageSize / hintSize : Nat) : Int) → initHintArr.count k = 1) := by
  obtain ⟨x, rest, hx, hget, _, hlen, hnd, hmem⟩ := getRandomSeg_nodup A hA r hr
  have e : pageSize / hintSize = 256 := by decide
  refine ⟨⟨x, rest, hx, hget, hlen, hnd, hmem⟩, nodup_initHintArr, ?_, ?_, ?_⟩
  · rw [e]; exact length_initHintArr
  · intro k
    rw [e]
    exact mem_initHintArr k
  · intro k h0 h1
    rw [e] at h1
    exact List.count_eq_one_of_mem nodup_initHintArr ((mem_initHintArr k).2 ⟨h0, h1⟩)

/-- Instance of C12: drawing index `1` from the array `5, 7, 9`. -/
theorem getRandomSeg_swap_pop_witness :
    (∃ x A1, ([5, 7, 9] : List Int)[1]? = some x ∧
      getRandomSeg [5, 7, 9] 1 = some (x, A1) ∧
      A1.length = ([5, 7, 9] : List Int).length - 1 ∧ A1.Nodup ∧
      (∀ y, y ∈ A1 ↔ y ∈ ([5, 7, 9] : List Int) ∧ y ≠ x)) ∧
    initHintArr.Nodup ∧ initHintArr.length = pageSize / hintSize ∧
    (∀ k : Int, k ∈ initHintArr ↔ 0 ≤ k ∧ k < ((pageSize / hintSize : Nat) : Int)) ∧
    (∀ k : Int, 0 ≤ k → k < ((pageSize / hintSize : Nat) : Int) → initHintArr.count k = 1) :=
  getRandomSeg_swap_pop [5, 7, 9] (by decide) 1 (by decide)

/-! ## The segments drawn by `comprPredict` -/

/-- Invariant of the sampler loop started on any duplicate-free array: after
`n` in-range draws the drawn numbers and the remaining array together are a
permutation of the initial array. -/
theorem drawLoop_perm (rnd : Nat → Nat) (A0 : List Int) (hA0 : A0.Nodup) (n : Nat)
    (hrnd : ∀ i, i < n → rnd i < A0.length - i) :
    ∃ segs rest, forLoop n (drawStep rnd) ([], A0) = some (segs, rest) ∧
      segs.length = n ∧ (segs ++ rest).Perm A0 := by
  obtain ⟨st, hst, hlen, hperm⟩ := forLoop_inv (drawStep rnd)
    (fun i (st : List Int × List Int) => st.1.length = i ∧ (st.1 ++ st.2).Perm A0) n ([], A0)
    ⟨rfl, List.Perm.refl _⟩
    (by
      rintro i ⟨segs, rest⟩ hi ⟨hlen, hperm⟩
      have hlen' : segs.length = i := hlen
      have hperm' : (segs ++ rest).Perm A0 := hperm
      have hnd : (segs ++ rest).Nodup := hperm'.nodup_iff.2 hA0
      have htot : segs.length + rest.length = A0.length := by
        rw [← List.length_append]; exact hperm'.length_eq
      have hr : rnd i < rest.length := by
        have := hrnd i hi
        omega
      obtain ⟨x, rest1, _, hget, hp1, _, _, _⟩ :=
        getRandomSeg_nodup rest (List.Nodup.of_append_right hnd) (rnd i) hr
      refine ⟨(segs ++ [x], rest1), ?_, ?_, ?_⟩
      · simp only [drawStep, hget]
      · show (segs ++ [x]).length = i + 1
        rw [List.length_append, List.length_singleton, hlen']
      · show ((segs ++ [x]) ++ rest1).Perm A0
        rw [List.append_assoc, List.singleton_append]
        exact (List.Perm.append_left segs hp1).trans hperm')
  exact ⟨st.1, st.2, hst, hlen, hperm⟩

/-- The segment numbers drawn from `initHintArr()` by in-range draws. -/
theorem drawSegs_spec (rnd : Nat → Nat) (n : Nat) (hrnd : ∀ i, i < n → rnd i < 256 - i) :
    ∃ segs rest, drawSegs rnd n = some (segs, rest) ∧ segs.length = n ∧ segs.Nodup ∧
      rest.length = 256 - n ∧ (∀ s ∈ segs, 0 ≤ s ∧ s < 256) ∧
      (∀ s ∈ rest, 0 ≤ s ∧ s < 256) := by
  obtain ⟨segs, rest, hloop, hlen, hperm⟩ := drawLoop_perm rnd initHintArr nodup_initHintArr n
    (by rw [length_initHintArr]; exact hrnd)
  have hnd : (segs ++ rest).Nodup := hperm.nodup_iff.2 nodup_initHintArr
  have htot := hperm.length_eq
  rw [List.length_append, length_initHintArr, hlen] at htot
  refine ⟨segs, rest, hloop, hlen, List.Nodup.of_append_left hnd, by omega, ?_, ?_⟩
  · intro s hs
    exact (mem_initHintArr s).1 (hperm.subset (List.mem_append_left rest hs))
  · intro s hs
    exact (mem_initHintArr s).1 (hperm.subset (List.mem_append_right segs hs))

/-- One iteration of `comprPredict` spelled out: the draw, the entropy of the
drawn segment and the new state. -/
theorem comprPredictStep_eq {R : Type} [LinearOrderedField R] (logLut : List R)
    (hlut : logLut.length = 256) (data : List Byte) (hpage : data.length = pageSize)
    (rnd : Nat → Nat) (i : Nat) (hi : i < numHintsToTry) (hrnd : rnd i < 256 - i)
    (st : PredState R) (hinv : PredInv i st) :
    ∃ segNum rest entr, getRandomSeg st.hintArr (rnd i) = some (segNum, rest) ∧
      segEntropy logLut data segNum = some entr ∧
      comprPredictStep logLut data rnd st i =
        some ⟨st.retEntr.set i entr, rest,
          if entr < entrThreshold then st.succ + 1 else st.succ⟩ := by
  obtain ⟨segNum, rest, hget, hmem, _, _⟩ :=
    getRandomSeg_mem st.hintArr (rnd i) (by rw [hinv.hint_len]; exact hrnd)
  have hseg := hinv.hint_mem segNum hmem
  have hcast : ((segNum.toNat : Nat) : Int) = segNum := Int.toNat_of_nonneg hseg.1
  have hin : (segNum.toNat + 1) * hintSize ≤ data.length := by
    rw [hpage]
    have : segNum.toNat < 256 := by omega
    unfold hintSize pageSize
    omega
  obtain ⟨counts, B, entr, hgen, hent⟩ := segEntropy_defined logLut hlut data segNum.toNat hin
  rw [hcast] at hgen
  have hset : setIdx st.retEntr (i : Int) entr = some (st.retEntr.set i entr) :=
    setIdx_natCast _ _ _ (by rw [hinv.entr_len]; exact hi)
  refine ⟨segNum, rest, entr, hget, ?_, ?_⟩
  · simp only [segEntropy, hgen, hent]
  · simp only [comprPredictStep, hget, hgen, hent, hset]

/-- The loop of `comprPredict` run next to the sampler loop: after `n`
iterations the array of the predictor is the array of the sampler and the
entropies collected so far are those of the drawn segments. -/
theorem comprPredict_loop_trace {R : Type} [LinearOrderedField R] (logLut : List R)
    (hlut : logLut.length = 256) (data : List Byte) (hpage : data.length = pageSize)
    (rnd : Nat → Nat) (hrnd : ∀ i, i < numHintsToTry → rnd i < 256 - i)
    (retEntr : List R) (A0 : List Int) (h0 : PredInv 0 (⟨retEntr, A0, 0⟩ : PredState R)) :
    ∃ st segs, forLoop numHintsToTry (comprPredictStep logLut data rnd) ⟨retEntr, A0, 0⟩ =
        some st ∧ PredInv numHintsToTry st ∧
      forLoop numHintsToTry (drawStep rnd) ([], A0) = some (segs, st.hintArr) ∧
      (st.retEntr.take numHintsToTry).map some = segs.map (segEntropy logLut data) := by
  obtain ⟨st, hst, hinv, segs, hdraw, hentr⟩ := forLoop_inv (comprPredictStep logLut data rnd)
    (fun i (st : PredState R) => PredInv i st ∧
      ∃ segs, forLoop i (drawStep rnd) ([], A0) = some (segs, st.hintArr) ∧
        (st.retEntr.take i).map some = segs.map (segEntropy logLut data))
    numHintsToTry ⟨retEntr, A0, 0⟩
    ⟨h0, [], forLoop_zero _ _, by simp⟩
    (by
      rintro i st hi ⟨hinv, segs, hdraw, hentr⟩
      obtain ⟨segNum, rest, entr, hget, hse, hstep⟩ :=
        comprPredictStep_eq logLut hlut data hpage rnd i hi (hrnd i hi) st hinv
      obtain ⟨st1, hstep1, hinv1⟩ :=
        comprPredictStep_inv logLut hlut data hpage rnd i hi (hrnd i hi) st hinv
      rw [hstep] at hstep1
      have hst1 := Option.some.inj hstep1
      refine ⟨_, hstep, by rw [hst1]; exact hinv1, segs ++ [segNum], ?_, ?_⟩
      · rw [forLoop_succ, hdraw]
        simp only [Option.some_bind, drawStep, hget]
      · have htake : (st.retEntr.set i entr).take (i + 1) = st.retEntr.take i ++ [entr] := by
          rw [List.take_succ, List.set_take,
            List.set_eq_of_length_le (by rw [List.length_take]; omega),
            List.getElem?_set_self (by rw [hinv.entr_len]; exact hi)]
          rfl
        show ((st.retEntr.set i entr).take (i + 1)).map some = _
        rw [htake, List.map_append, List.map_append, hentr, List.map_singleton,
          List.map_singleton, hse])
  exact ⟨st, segs, hst, hinv, hdraw, hentr⟩

/-- What `comprPredict` returns, in terms of the segments it draws: the
entropies are those of the drawn segments, in drawing order, and the verdict
says whether at least two of them are below the threshold. -/
theorem comprPredict_trace {R : Type} [LinearOrderedField R] (logLut : List R)
    (hlut : logLut.length = 256) (data : List Byte) (hpage : data.length = pageSize)
    (rnd : Nat → Nat) (hrnd : ∀ i, i < numHintsToTry → rnd i < 256 - i) :
    ∃ segs rest v e, drawSegs rnd numHintsToTry = some (segs, rest) ∧
      comprPredict logLut data rnd = some (v, e) ∧ e.length = numHintsToTry ∧
      (v = true ↔ 2 ≤ e.countP (fun x => decide (x < entrThreshold))) ∧
      e.map some = segs.map (segEntropy logLut data) := by
  obtain ⟨st, segs, hst, hinv, hdraw, hentr⟩ := comprPredict_loop_trace logLut hlut data hpage
    rnd hrnd (List.replicate numHintsToTry (0 : R)) initHintArr
    (predInv_init _ initHintArr (List.length_replicate _ _) length_initHintArr
      (fun x hx => (mem_initHintArr x).1 hx))
  have hres := comprPredict_unfold logLut data rnd _ _ rfl rfl st hst
  have hlen : st.retEntr.length = numHintsToTry := hinv.entr_len
  have htake : st.retEntr.take numHintsToTry = st.retEntr :=
    List.take_of_length_le (by rw [hlen])
  have hsucc := hinv.succ_eq
  rw [htake] at hsucc hentr
  refine ⟨segs, st.hintArr, _, _, hdraw, hres, hlen, ?_, hentr⟩
  rw [decide_eq_true_iff, hsucc]
  constructor
  · intro h; exact_mod_cast h
  · intro h; exact_mod_cast h

/-- C11 (sampler uniqueness): starting from `initHintArr()`, for all random
indices that lie within the current array length, the `K = 3` segment numbers
drawn by the successive `getRandomSeg` calls of `comprPredict` are pairwise
distinct and each lies in `[0, 256)`; these are the segments whose entropies
`comprPredict` returns. -/
theorem sampler_uniqueness (rnd : Nat → Nat) (hrnd : ∀ i, i < 3 → rnd i < 256 - i) :
    ∃ segs rest, drawSegs rnd numHintsToTry = some (segs, rest) ∧ segs.length = 3 ∧
      segs.Nodup ∧ (∀ s ∈ segs, 0 ≤ s ∧ s < ((pageSize / hintSize : Nat) : Int)) ∧
      ∀ (R : Type) [LinearOrderedField R] (logLut : List R) (data : List Byte),
        logLut.length = 256 → data.length = pageSize →
        ∃ v e, comprPredict logLut data rnd = some (v, e) ∧
          e.map some = segs.map (segEntropy logLut data) := by
  obtain ⟨segs, rest, hdraw, hlen, hnd, _, hmem, _⟩ := drawSegs_spec rnd numHintsToTry hrnd
  refine ⟨segs, rest, hdraw, hlen, hnd, hmem, ?_⟩
  intro R _ logLut data hlut hpage
  obtain ⟨segs1, rest1, v, e, hdraw1, hres, _, _, hentr⟩ :=
    comprPredict_trace logLut hlut data hpage rnd hrnd
  rw [hdraw] at hdraw1
  have hs : segs = segs1 := congrArg Prod.fst (Option.some.inj hdraw1)
  exact ⟨v, e, hres, by rw [hs]; exact hentr⟩

/-- Instance of C11: the random indices `0, 1, 2`. -/
theorem sampler_uniqueness_witness :
    ∃ segs rest, drawSegs (fun i => i) numHintsToTry = some (segs, rest) ∧ segs.length = 3 ∧
      segs.Nodup ∧ (∀ s ∈ segs, 0 ≤ s ∧ s < ((pageSize / hintSize : Nat) : Int)) ∧
      ∀ (R : Type) [LinearOrderedField R] (logLut : List R) (data : List Byte),
        logLut.length = 256 → data.length = pageSize →
        ∃ v e, comprPredict logLut data (fun i => i) = some (v, e) ∧
          e.map some = segs.map (segEntropy logLut data) :=
  sampler_uniqueness (fun i => i) (fun i hi => by show i < 256 - i; omega)

/-! ## The predictor never fails; order of the draws -/

theorem forLoop_first_fail {σ : Type} (n : Nat) (body : σ → Nat → Option σ) (init : σ)
    (h : body init 0 = none) : forLoop (n + 1) body init = none := by
  induction n with
  | zero => rw [forLoop_succ, forLoop_zero]; exact h
  | succ m ih => rw [forLoop_succ, ih]; rfl

/-- The embedding does fail where Go panics: on a page that is too short the
very first byte access of `genHist` is out of range. -/
theorem genHist_empty (segNum : Nat) : genHist [] (segNum : Int) = none := by
  have hstep : genHistStep [] ((segNum : Int) * (hintSize : Int))
      ⟨List.replicate 256 (-1 : Int), List.replicate hintSize (0 : Int), 0⟩ 0 = none := by
    have hget : getIdx ([] : List Byte) ((segNum : Int) * (hintSize : Int) + ((0 : Nat) : Int))
        = none := by
      unfold getIdx
      split <;> simp
    simp only [genHistStep, hget]
  have hloop := forLoop_first_fail 63 _ _ hstep
  simp only [genHist]
  have e : hintSize = 63 + 1 := rfl
  rw [e] at hloop ⊢
  rw [hloop]

/-- C13 (the predictor cannot fail): for every page of exactly `P = 16384`
bytes and all in-range random draw indices `comprPredict` returns a result.
In the embedding every index expression of `comprPredict`, `getRandomSeg`,
`genHist` and `getEntropy` (`hintArr[segInd]`, `data[startInd+i]`,
`symbol[curByte]`, `histBuf[useBucket]`, `histBuf[ind]`, `logLut[thisVal]`,
`logLut[hintSize]`) yields `none` when it is out of bounds, so a result means
that each of them was within bounds. -/
theorem comprPredict_total {R : Type} [LinearOrderedField R] (logLut : List R)
    (hlut : logLut.length = 256) (data : List Byte) (hpage : data.length = 16384)
    (rnd : Nat → Nat) (hrnd : ∀ i, i < 3 → rnd i < 256 - i) :
    (comprPredict logLut data rnd).isSome = true ∧
      ∃ verdict entr, comprPredict logLut data rnd = some (verdict, entr) := by
  obtain ⟨_, _, v, e, _, hres, _, _, _⟩ := comprPredict_trace logLut hlut data hpage rnd hrnd
  exact ⟨by rw [hres]; rfl, v, e, hres⟩

/-- Instance of C13: the all-zero page, a table of 256 rationals and the random
indices `5, 5, 5`. -/
theorem comprPredict_total_witness :
    (comprPredict (List.replicate 256 (1 : ℚ)) zeroPage (fun _ => 5)).isSome = true ∧
      ∃ verdict entr, comprPredict (List.replicate 256 (1 : ℚ)) zeroPage (fun _ => 5) =
        some (verdict, entr) :=
  comprPredict_total (List.replicate 256 (1 : ℚ)) (List.length_replicate _ _) zeroPage
    (List.length_replicate _ _) (fun _ => 5) (fun i hi => by show 5 < 256 - i; omega)

/-- C14 (order-independence of the verdict): for every page and every two
sequences of in-range random draw indices under which `comprPredict` draws
the same set of three sub-segments, in any order, the two verdicts are equal. -/
theorem verdict_order_independent {R : Type} [LinearOrderedField R] (logLut : List R)
    (hlut : logLut.length = 256) (data : List Byte) (hpage : data.length = 16384)
    (rnd1 rnd2 : Nat → Nat) (hrnd1 : ∀ i, i < 3 → rnd1 i < 256 - i)
    (hrnd2 : ∀ i, i < 3 → rnd2 i < 256 - i)
    (segs1 rest1 segs2 rest2 : List Int)
    (hd1 : drawSegs rnd1 numHintsToTry = some (segs1, rest1))
    (hd2 : drawSegs rnd2 numHintsToTry = some (segs2, rest2))
    (hset : ∀ s, s ∈ segs1 ↔ s ∈ segs2) :
    ∃ verdict e1 e2, comprPredict logLut data rnd1 = some (verdict, e1) ∧
      comprPredict logLut data rnd2 = some (verdict, e2) := by
  obtain ⟨t1, r1, v1, e1, hdraw1, hres1, _, hv1, hentr1⟩ :=
    comprPredict_trace logLut hlut data hpage rnd1 hrnd1
  obtain ⟨t2, r2, v2, e2, hdraw2, hres2, _, hv2, hentr2⟩ :=
    comprPredict_trace logLut hlut data hpage rnd2 hrnd2
  obtain ⟨u1, _, hu1, _, hnd1, _, _, _⟩ := drawSegs_spec rnd1 numHintsToTry hrnd1
  obtain ⟨u2, _, hu2, _, hnd2, _, _, _⟩ := drawSegs_spec rnd2 numHintsToTry hrnd2
  rw [hd1] at hdraw1 hu1
  rw [hd2] at hdraw2 hu2
  have ht1 : segs1 = t1 := congrArg Prod.fst (Option.some.inj hdraw1)
  have ht2 : segs2 = t2 := congrArg Prod.fst (Option.some.inj hdraw2)
  have hs1 : segs1 = u1 := congrArg Prod.fst (Option.some.inj hu1)
  have hs2 : segs2 = u2 := congrArg Prod.fst (Option.some.inj hu2)
  rw [← ht1] at hentr1
  rw [← ht2] at hentr2
  rw [← hs1] at hnd1
  rw [← hs2] at hnd2
  have hperm : segs1.Perm segs2 := (List.perm_ext_iff_of_nodup hnd1 hnd2).2 hset
  -- count the entropies below the threshold on the side of the segments
  have hcount : ∀ (e : List R) (segs : List Int),
      e.map some = segs.map (segEntropy logLut data) →
      e.countP (fun x => decide (x < entrThreshold)) =
        (segs.map (segEntropy logLut data)).countP
          (fun o => match o with
            | some x => decide (x < entrThreshold)
            | none => false) := by
    intro e segs h
    rw [← h, List.countP_map]
    rfl
  have hceq : e1.countP (fun x => decide (x < entrThreshold)) =
      e2.countP (fun x => decide (x < entrThreshold)) := by
    rw [hcount e1 segs1 hentr1, hcount e2 segs2 hentr2]
    exact (hperm.map _).countP_eq _
  have hv : v1 = v2 := by
    rw [Bool.eq_iff_iff, hv1, hv2, hceq]
  refine ⟨v1, e1, e2, hres1, ?_⟩
  rw [hv]
  exact hres2

set_option maxRecDepth 1000000

/-- The random indices `0, 1, 2` draw the segments `0, 1, 2`. -/
theorem drawSegs_012 :
    ∃ rest, drawSegs (fun i => i) numHintsToTry = some ([0, 1, 2], rest) := by
  have h : (drawSegs (fun i => i) numHintsToTry).map Prod.fst = some [0, 1, 2] := by decide
  cases hd : drawSegs (fun i => i) numHintsToTry with
  | none => rw [hd] at h; exact Option.noConfusion h
  | some p =>
    rw [hd] at h
    exact ⟨p.2, by rw [← Option.some.inj h]⟩

/-- The random indices `1, 0, 2` draw the segments `1, 0, 2`. -/
theorem drawSegs_102 :
    ∃ rest, drawSegs (fun i => if i = 0 then 1 else if i = 1 then 0 else 2) numHintsToTry =
      some ([1, 0, 2], rest) := by
  have h : (drawSegs (fun i => if i = 0 then 1 else if i = 1 then 0 else 2)
      numHintsToTry).map Prod.fst = some [1, 0, 2] := by decide
  cases hd : drawSegs (fun i => if i = 0 then 1 else if i = 1 then 0 else 2) numHintsToTry with
  | none => rw [hd] at h; exact Option.noConfusion h
  | some p =>
    rw [hd] at h
    exact ⟨p.2, by rw [← Option.some.inj h]⟩

set_option maxRecDepth 512

/-- Instance of C14: on the all-zero page the draws `0, 1, 2` and `1, 0, 2`
select the segments `0, 1, 2` in two different orders. -/
theorem verdict_order_independent_witness :
    ∃ verdict e1 e2,
      comprPredict (List.replicate 256 (1 : ℚ)) zeroPage (fun i => i) = some (verdict, e1) ∧
      comprPredict (List.replicate 256 (1 : ℚ)) zeroPage
        (fun i => if i = 0 then 1 else if i = 1 then 0 else 2) = some (verdict, e2) :=
  Exists.elim drawSegs_012 (fun rest1 h1 => Exists.elim drawSegs_102 (fun rest2 h2 =>
    verdict_order_independent (List.replicate 256 (1 : ℚ)) (List.length_replicate _ _) zeroPage
      (List.length_replicate _ _) (fun i => i)
      (fun i => if i = 0 then 1 else if i = 1 then 0 else 2)
      (fun i hi => by show i < 256 - i; omega)
      (fun i hi => by
        show (if i = 0 then 1 else if i = 1 then 0 else 2) < 256 - i
        split_ifs <;> omega)
      [0, 1, 2] rest1 [1, 0, 2] rest2 h1 h2
      (fun _ => List.Perm.mem_iff (List.Perm.swap 1 0 [2]))))

/-! ## Pages on which every sub-segment has the same entropy -/

theorem firstAppear_replicate (n : Nat) (b : Byte) :
    firstAppear (List.replicate (n + 1) b) = [b] := by
  induction n with
  | zero => rfl
  | succ m ih =>
    rw [List.replicate_succ', firstAppear_concat, ih, if_pos (List.mem_singleton_self b)]

/-- Histogram and entropy of a sub-segment that repeats one byte: one bucket,
entropy `0`, whatever the 256 entries of the table are. -/
theorem segEntropy_constant {R : Type} [Field R] (logLut : List R) (hlut : logLut.length = 256)
    (data : List Byte) (segNum : Nat) (h : (segNum + 1) * hintSize ≤ data.length) (b : Byte)
    (hc : subSegment data segNum = List.replicate hintSize b) :
    ∃ counts, genHist data (segNum : Int) = some (counts, 1) ∧
      getEntropy logLut counts 1 = some 0 := by
  obtain ⟨histBuf, hgen, _, hk⟩ := genHist_spec data segNum h
  have hfa : firstAppear (subSegment data segNum) = [b] := by
    rw [hc]; exact firstAppear_replicate 63 b
  have h64 : histAt (subSegment data segNum) 0 = 64 := by
    unfold histAt
    rw [hfa, hc]
    show List.count b (List.replicate hintSize b) = 64
    rw [List.count_replicate_self]
    rfl
  rw [hfa] at hgen
  have hgen1 : genHist data (segNum : Int) = some (histBuf, 1) := hgen
  have h0 := hk 0 (by decide)
  rw [h64] at h0
  have hlg : logLut[64]? = some ((logLut[64]?).getD 0) := by
    rw [List.getElem?_eq_getElem (by rw [hlut]; decide)]
    rfl
  have hent := getEntropy_eq logLut histBuf 1 (fun _ => 64) (fun n => (logLut[n]?).getD 0)
    hlg
    (fun k hk1 => by
      have hk0 : k = 0 := by
        have : k < 1 := hk1
        omega
      rw [hk0]; exact h0)
    (fun k _ => hlg)
  refine ⟨histBuf, hgen1, ?_⟩
  rw [hent]
  have e1 : (1 : Int).toNat = 1 := rfl
  rw [e1, Finset.sum_range_one]
  have e2 : hintSize = 64 := rfl
  rw [e2, sub_self, mul_zero, mul_zero, zero_div]

/-- All three entropies returned by `comprPredict` equal `c` when every
sub-segment of the page has entropy `c`. -/
theorem comprPredict_uniform {R : Type} [LinearOrderedField R] (logLut : List R)
    (hlut : logLut.length = 256) (data : List Byte) (hpage : data.length = pageSize)
    (rnd : Nat → Nat) (hrnd : ∀ i, i < numHintsToTry → rnd i < 256 - i) (c : R)
    (hc : ∀ s : Int, 0 ≤ s → s < 256 → segEntropy logLut data s = some c) :
    comprPredict logLut data rnd = some (decide (c < entrThreshold), [c, c, c]) := by
  obtain ⟨segs, rest, v, e, hdraw, hres, hlen, hv, hentr⟩ :=
    comprPredict_trace logLut hlut data hpage rnd hrnd
  obtain ⟨segs1, _, hdraw1, _, _, _, hmem, _⟩ := drawSegs_spec rnd numHintsToTry hrnd
  rw [hdraw] at hdraw1
  have hs : segs = segs1 := congrArg Prod.fst (Option.some.inj hdraw1)
  rw [← hs] at hmem
  have hall : ∀ x ∈ e, x = c := by
    intro x hx
    have hx' : some x ∈ e.map some := List.mem_map_of_mem some hx
    rw [hentr, List.mem_map] at hx'
    obtain ⟨sg, hsg, hsx⟩ := hx'
    rw [hc sg (hmem sg hsg).1 (hmem sg hsg).2] at hsx
    exact (Option.some.inj hsx).symm
  have he : e = [c, c, c] := by
    have := List.eq_replicate_iff.2 ⟨hlen, hall⟩
    rw [this]
    rfl
  have hvc : v = decide (c < entrThreshold) := by
    rw [Bool.eq_iff_iff, hv, he, decide_eq_true_iff]
    by_cases hlt : c < entrThreshold
    · simp [hlt]
    · simp [hlt]
  rw [hres, hvc, he]

theorem subSegment_zeroPage (segNum : Nat) (h : segNum < 256) :
    subSegment zeroPage segNum = List.replicate hintSize 0 := by
  unfold subSegment zeroPage
  rw [List.drop_replicate, List.take_replicate]
  congr 1
  unfold pageSize hintSize
  omega

/-- C15 (all-zero page): on the page of 16384 zero bytes every sub-segment has
`B = 1` and entropy `0`, and `comprPredict` returns the verdict `true` with
all three entropies `0`, for all in-range random draws (and whatever the 256
entries of the table are). -/
theorem zero_page_prediction {R : Type} [LinearOrderedField R] (logLut : List R)
    (hlut : logLut.length = 256) (rnd : Nat → Nat) (hrnd : ∀ i, i < 3 → rnd i < 256 - i) :
    (∀ segNum : Nat, segNum < 256 →
      ∃ counts, genHist zeroPage (segNum : Int) = some (counts, 1) ∧
        getEntropy logLut counts 1 = some 0) ∧
    comprPredict logLut zeroPage rnd = some (true, [0, 0, 0]) := by
  have hin : ∀ segNum : Nat, segNum < 256 → (segNum + 1) * hintSize ≤ zeroPage.length := by
    intro segNum hs
    unfold zeroPage
    rw [List.length_replicate]
    unfold hintSize pageSize
    omega
  have hseg : ∀ segNum : Nat, segNum < 256 →
      ∃ counts, genHist zeroPage (segNum : Int) = some (counts, 1) ∧
        getEntropy logLut counts 1 = some 0 :=
    fun segNum hs => segEntropy_constant logLut hlut zeroPage segNum (hin segNum hs) 0
      (subSegment_zeroPage segNum hs)
  refine ⟨hseg, ?_⟩
  have hc : ∀ s : Int, 0 ≤ s → s < 256 → segEntropy logLut zeroPage s = some 0 := by
    intro s h0 h1
    obtain ⟨counts, hgen, hent⟩ := hseg s.toNat (by omega)
    rw [Int.toNat_of_nonneg h0] at hgen
    simp only [segEntropy, hgen, hent]
  have hres := comprPredict_uniform logLut hlut zeroPage (List.length_replicate _ _) rnd hrnd 0 hc
  rw [hres]
  have h5 : decide ((0 : R) < entrThreshold) = true := by
    rw [decide_eq_true_iff]
    show (0 : R) < 5
    norm_num
  rw [h5]

/-- Instance of C15: a table of 256 rationals and the random indices `7, 7, 7`. -/
theorem zero_page_prediction_witness :
    (∀ segNum : Nat, segNum < 256 →
      ∃ counts, genHist zeroPage (segNum : Int) = some (counts, 1) ∧
        getEntropy (List.replicate 256 (1 : ℚ)) counts 1 = some 0) ∧
    comprPredict (List.replicate 256 (1 : ℚ)) zeroPage (fun _ => 7) = some (true, [0, 0, 0]) :=
  zero_page_prediction (List.replicate 256 (1 : ℚ)) (List.length_replicate _ _) (fun _ => 7)
    (fun i hi => by show 7 < 256 - i; omega)

theorem length_identityPage : identityPage.length = pageSize := by
  unfold identityPage
  rw [List.length_map, List.length_range]

theorem getElem?_subSegment (data : List Byte) (segNum i : Nat) (hi : i < hintSize) :
    (subSegment data segNum)[i]? = data[segNum * hintSize + i]? := by
  rw [subSegment, List.getElem?_take_of_lt hi, List.getElem?_drop]

/-- Every sub-segment of the identity page consists of 64 different bytes. -/
theorem nodup_subSegment_identityPage (segNum : Nat) (h : segNum < 256) :
    (subSegment identityPage segNum).Nodup := by
  have hlen : (subSegment identityPage segNum).length = hintSize :=
    length_subSegment identityPage segNum (by
      rw [length_identityPage]
      unfold hintSize pageSize
      omega)
  have hget : ∀ i, i < hintSize →
      (subSegment identityPage segNum)[i]? = some (Fin.ofNat (segNum * hintSize + i)) := by
    intro i hi
    rw [getElem?_subSegment identityPage segNum i hi]
    unfold identityPage
    rw [List.getElem?_map, List.getElem?_range (by
      unfold hintSize at hi ⊢
      unfold pageSize
      omega)]
    rfl
  rw [List.nodup_iff_getElem?_ne_getElem?]
  intro i j hij hj
  rw [hlen] at hj
  rw [hget i (by omega), hget j hj]
  intro heq
  have hv := congrArg Fin.val (Option.some.inj heq)
  simp only [Fin.ofNat, Fin.val_mk] at hv
  unfold hintSize at hv hj
  omega

theorem length_firstAppear_of_nodup {α : Type} [DecidableEq α] (l : List α) (h : l.Nodup) :
    (firstAppear l).length = l.length := by
  rw [length_firstAppear_eq_card, List.toFinset_card_of_nodup h]

/-- Histogram and entropy of an in-range sub-segment of 64 different bytes,
with the table of exact real logarithms: 64 buckets, entropy `6`. -/
theorem segEntropy_nodup_buckets (data : List Byte) (segNum : Nat)
    (h : (segNum + 1) * hintSize ≤ data.length) (hnd : (subSegment data segNum).Nodup) :
    ∃ counts, genHist data (segNum : Int) = some (counts, 64) ∧
      getEntropy (initLogLut Real.log (logLutZero : List ℝ)) counts 64 = some 6 := by
  obtain ⟨histBuf, hgen, _, _⟩ := genHist_spec data segNum h
  obtain ⟨counts, B, hgen1, hent⟩ := segEntropy_nodup data segNum h hnd
  rw [length_firstAppear_of_nodup _ hnd, length_subSegment data segNum h] at hgen
  have hgen64 : genHist data (segNum : Int) = some (histBuf, 64) := hgen
  rw [hgen64] at hgen1
  have hp := Option.some.inj hgen1
  have hc : histBuf = counts := congrArg Prod.fst hp
  have hB : (64 : Int) = B := congrArg Prod.snd hp
  refine ⟨histBuf, hgen64, ?_⟩
  rw [hc, hB]
  exact hent

/-- C16 (identity page): on the page whose byte `i` is `i mod 256` the
sub-segment at offset 0 has `B = 64` and entropy `log2 64 = 6`, and
`comprPredict` returns the verdict `false` for all in-range random draws (the
three entropies are `6`). -/
theorem identity_page_prediction (rnd : Nat → Nat) (hrnd : ∀ i, i < 3 → rnd i < 256 - i) :
    (∃ counts, genHist identityPage 0 = some (counts, 64) ∧
      getEntropy (initLogLut Real.log (logLutZero : List ℝ)) counts 64 =
        some (Real.logb 2 64)) ∧
    Real.logb 2 (64 : ℝ) = 6 ∧
    comprPredict (initLogLut Real.log (logLutZero : List ℝ)) identityPage rnd =
      some (false, [6, 6, 6]) := by
  have hin : ∀ segNum : Nat, segNum < 256 → (segNum + 1) * hintSize ≤ identityPage.length := by
    intro segNum hs
    rw [length_identityPage]
    unfold hintSize pageSize
    omega
  have hseg := fun (segNum : Nat) (hs : segNum < 256) =>
    segEntropy_nodup_buckets identityPage segNum (hin segNum hs)
      (nodup_subSegment_identityPage segNum hs)
  have h6 : Real.logb 2 (64 : ℝ) = 6 := by
    have := logb_two_hintSize
    norm_num [hintSize] at this
    exact this
  refine ⟨?_, h6, ?_⟩
  · obtain ⟨counts, hgen, hent⟩ := hseg 0 (by decide)
    rw [Nat.cast_zero] at hgen
    exact ⟨counts, hgen, by rw [h6]; exact hent⟩
  · have hlut : (initLogLut Real.log (logLutZero : List ℝ)).length = 256 := by
      rw [length_initLogLut]
      exact List.length_replicate _ _
    have hc : ∀ s : Int, 0 ≤ s → s < 256 →
        segEntropy (initLogLut Real.log (logLutZero : List ℝ)) identityPage s = some 6 := by
      intro s h0 h1
      obtain ⟨counts, hgen, hent⟩ := hseg s.toNat (by omega)
      rw [Int.toNat_of_nonneg h0] at hgen
      simp only [segEntropy, hgen, hent]
    have hres := comprPredict_uniform (initLogLut Real.log (logLutZero : List ℝ)) hlut
      identityPage length_identityPage rnd hrnd 6 hc
    rw [hres]
    have h5 : decide ((6 : ℝ) < entrThreshold) = false := by
      rw [decide_eq_false_iff_not]
      show ¬ (6 : ℝ) < 5
      norm_num
    rw [h5]

/-- Instance of C16: the random indices `0, 1, 2`. -/
theorem identity_page_prediction_witness :
    (∃ counts, genHist identityPage 0 = some (counts, 64) ∧
      getEntropy (initLogLut Real.log (logLutZero : List ℝ)) counts 64 =
        some (Real.logb 2 64)) ∧
    Real.logb 2 (64 : ℝ) = 6 ∧
    comprPredict (initLogLut Real.log (logLutZero : List ℝ)) identityPage (fun i => i) =
      some (false, [6, 6, 6]) :=
  identity_page_prediction (fun i => i) (fun i hi => by show i < 256 - i; omega)

/-! ## Renaming the byte values -/

theorem firstAppear_map {α β : Type} [DecidableEq α] [DecidableEq β] (f : α → β)
    (hf : Function.Injective f) (l : List α) :
    firstAppear (l.map f) = (firstAppear l).map f := by
  induction l using List.reverseRecOn with
  | nil => rfl
  | append_singleton l b ih =>
    rw [List.map_append, List.map_singleton, firstAppear_concat, firstAppear_concat, ih]
    by_cases hb : b ∈ firstAppear l
    · rw [if_pos hb, if_pos (List.mem_map_of_mem f hb)]
    · have hb' : f b ∉ (firstAppear l).map f := by
        intro hm
        exact hb ((List.mem_map_of_injective hf).1 hm)
      rw [if_neg hb, if_neg hb', List.map_append, List.map_singleton]

theorem histAt_map (f : Byte → Byte) (hf : Function.Injective f) (l : List Byte) (k : Nat) :
    histAt (l.map f) k = histAt l k := by
  unfold histAt
  rw [firstAppear_map f hf, List.getElem?_map]
  cases (firstAppear l)[k]? with
  | none => rfl
  | some b => exact List.count_map_of_injective l f hf b

theorem subSegment_map (f : Byte → Byte) (data : List Byte) (segNum : Nat) :
    subSegment (data.map f) segNum = (subSegment data segNum).map f := by
  unfold subSegment
  rw [List.map_take, List.map_drop]

/-- C17 (independence from byte values): for every injective map `f` on byte
values and every in-range sub-segment, `genHist` on the data with every byte
`b` replaced by `f b` returns the same `(counts, B)` as on the original data,
so the entropy of the sub-segment is the same with any table. -/
theorem genHist_map_injective (f : Byte → Byte) (hf : Function.Injective f)
    (data : List Byte) (segNum : Nat) (h : (segNum + 1) * 64 ≤ data.length) :
    (∃ counts B, genHist data (segNum : Int) = some (counts, B) ∧
      genHist (data.map f) (segNum : Int) = some (counts, B)) ∧
    ∀ (R : Type) [Field R] (logLut : List R),
      segEntropy logLut (data.map f) (segNum : Int) = segEntropy logLut data (segNum : Int) := by
  obtain ⟨hb1, hgen1, hlen1, hk1⟩ := genHist_spec data segNum h
  obtain ⟨hb2, hgen2, hlen2, hk2⟩ := genHist_spec (data.map f) segNum
    (by rw [List.length_map]; exact h)
  have hbuf : hb2 = hb1 := by
    apply List.ext_getElem?
    intro k
    by_cases hk : k < hintSize
    · rw [hk1 k hk, hk2 k hk, subSegment_map, histAt_map f hf]
    · rw [List.getElem?_eq_none (by omega), List.getElem?_eq_none (by omega)]
  have hB : (firstAppear (subSegment (data.map f) segNum)).length =
      (firstAppear (subSegment data segNum)).length := by
    rw [subSegment_map, firstAppear_map f hf, List.length_map]
  rw [hbuf, hB] at hgen2
  refine ⟨⟨hb1, _, hgen1, hgen2⟩, ?_⟩
  intro R _ logLut
  simp only [segEntropy, hgen1, hgen2]

/-- Instance of C17: the second sub-segment of `sampleData` and the reversal
`b ↦ 255 - b` of the byte values. -/
theorem genHist_map_injective_witness :
    (∃ counts B, genHist sampleData ((1 : Nat) : Int) = some (counts, B) ∧
      genHist (sampleData.map Fin.rev) ((1 : Nat) : Int) = some (counts, B)) ∧
    ∀ (R : Type) [Field R] (logLut : List R),
      segEntropy logLut (sampleData.map Fin.rev) ((1 : Nat) : Int) =
        segEntropy logLut sampleData ((1 : Nat) : Int) :=
  genHist_map_injective Fin.rev Fin.rev_injective sampleData 1 (by rw [length_sampleData])

/-! ## The driver loop -/

/-- An iteration whose read returns `count == 0` or `io.EOF` leaves the loop;
only the buffer has changed. -/
theorem mainStep_stop {R : Type} [LinearOrderedField R] (comprPage : List Byte → Option Int)
    (logLut : List R) (st : MainState) (inp : IterInput)
    (hstop : inp.bytes.length = 0 ∨ inp.err = ReadErr.eof) :
    mainStep comprPage logLut st inp =
      some (⟨inp.bytes ++ st.data.drop inp.bytes.length, st.goodPredict, st.badPredict,
        st.pageCount, st.history⟩, false) := by
  have hstop' : ((inp.bytes.length : Nat) : Int) = 0 ∨ inp.err = ReadErr.eof := by
    rcases hstop with h | h
    · exact Or.inl (by exact_mod_cast h)
    · exact Or.inr h
  unfold mainStep
  rw [if_pos hstop']

/-- An iteration whose read returns another error panics. -/
theorem mainStep_read_error {R : Type} [LinearOrderedField R]
    (comprPage : List Byte → Option Int) (logLut : List R) (st : MainState) (inp : IterInput)
    (hcount : inp.bytes.length ≠ 0) (herr : inp.err = ReadErr.other) :
    mainStep comprPage logLut st inp = none := by
  have hstop' : ¬ (((inp.bytes.length : Nat) : Int) = 0 ∨ inp.err = ReadErr.eof) := by
    rintro (h | h)
    · exact hcount (by exact_mod_cast h)
    · rw [herr] at h; exact ReadErr.noConfusion h
  have hne : inp.err ≠ ReadErr.nil := by rw [herr]; exact fun h => ReadErr.noConfusion h
  unfold mainStep
  rw [if_neg hstop', if_pos hne]

/-- An iteration whose read returns `count > 0` and no error: the buffer goes
through `comprPage` and `comprPredict`, one of the two counters and
`pageCount` are incremented. -/
theorem mainStep_page {R : Type} [LinearOrderedField R] (comprPage : List Byte → Option Int)
    (logLut : List R) (st : MainState) (inp : IterInput)
    (hcount : inp.bytes.length ≠ 0) (herr : inp.err = ReadErr.nil)
    (comprCount : Int) (predict : Bool) (retEntr : List R)
    (hc : comprPage (inp.bytes ++ st.data.drop inp.bytes.length) = some comprCount)
    (hp : comprPredict logLut (inp.bytes ++ st.data.drop inp.bytes.length) inp.rnd =
      some (predict, retEntr))
    (hlen : retEntr.length = 3) :
    mainStep comprPage logLut st inp =
      some (⟨inp.bytes ++ st.data.drop inp.bytes.length,
        if agrees (predict, comprCount) = true then st.goodPredict + 1 else st.goodPredict,
        if agrees (predict, comprCount) = true then st.badPredict else st.badPredict + 1,
        st.pageCount + 1, st.history ++ [(predict, comprCount)]⟩,
        decide (¬ st.pageCount + 1 ≥ 1000)) := by
  have hstop' : ¬ (((inp.bytes.length : Nat) : Int) = 0 ∨ inp.err = ReadErr.eof) := by
    rintro (h | h)
    · exact hcount (by exact_mod_cast h)
    · rw [herr] at h; exact ReadErr.noConfusion h
  have hne : ¬ (inp.err ≠ ReadErr.nil) := fun h => h herr
  obtain ⟨a, b, c, rfl⟩ := List.length_eq_three.1 hlen
  have hprint : printPredict [a, b, c] = some () := rfl
  unfold mainStep
  rw [if_neg hstop', if_neg hne]
  simp only [hc, hp]
  unfold agrees
  generalize ((pageSize / 2 : Nat) : Int) = T
  cases predict <;> by_cases hle : comprCount ≤ T <;>
    simp [hle, hprint]

theorem length_readInto (bytes data : List Byte) (hb : bytes.length ≤ pageSize)
    (hd : data.length = pageSize) : (bytes ++ data.drop bytes.length).length = pageSize := by
  rw [List.length_append, List.length_drop, hd]
  omega

/-- One iteration of the loop of `main` under the contract of its
collaborators: it does not panic and keeps the invariant. -/
theorem mainStep_inv {R : Type} [LinearOrderedField R] (comprPage : List Byte → Option Int)
    (hcompr : ∀ d : List Byte, d.length = pageSize → ∃ c, comprPage d = some c)
    (logLut : List R) (hlut : logLut.length = 256) (st : MainState) (inp : IterInput)
    (hb : inp.bytes.length ≤ pageSize) (herr : inp.err ≠ ReadErr.other)
    (hrnd : ∀ i, i < numHintsToTry → inp.rnd i < 256 - i) (hinv : MainInv st) :
    ∃ st1 c, mainStep comprPage logLut st inp = some (st1, c) ∧ MainInv st1 := by
  have hlen := length_readInto inp.bytes st.data hb hinv.data_len
  by_cases hstop : inp.bytes.length = 0 ∨ inp.err = ReadErr.eof
  · exact ⟨_, _, mainStep_stop comprPage logLut st inp hstop,
      ⟨hlen, hinv.good_eq, hinv.bad_eq, hinv.count_eq⟩⟩
  · have hcount : inp.bytes.length ≠ 0 := fun h => hstop (Or.inl h)
    have hnil : inp.err = ReadErr.nil := by
      cases he : inp.err with
      | nil => rfl
      | eof => exact absurd (Or.inr he) hstop
      | other => exact absurd he herr
    obtain ⟨comprCount, hc⟩ := hcompr _ hlen
    obtain ⟨_, _, v, e, _, hres, helen, _, _⟩ :=
      comprPredict_trace logLut hlut _ hlen inp.rnd hrnd
    refine ⟨_, _, mainStep_page comprPage logLut st inp hcount hnil comprCount v e hc hres helen,
      ⟨hlen, ?_, ?_, ?_⟩⟩
    · show (if agrees (v, comprCount) = true then st.goodPredict + 1 else st.goodPredict) =
        ((List.countP agrees (st.history ++ [(v, comprCount)]) : Nat) : Int)
      rw [List.countP_append, List.countP_singleton, hinv.good_eq]
      by_cases ha : agrees (v, comprCount) = true
      · simp [ha]
      · simp [ha]
    · show (if agrees (v, comprCount) = true then st.badPredict else st.badPredict + 1) =
        ((List.countP (fun p => !agrees p) (st.history ++ [(v, comprCount)]) : Nat) : Int)
      rw [List.countP_append, List.countP_singleton, hinv.bad_eq]
      by_cases ha : agrees (v, comprCount) = true
      · simp [ha]
      · simp [ha]
    · show st.pageCount + 1 = (((st.history ++ [(v, comprCount)]).length : Nat) : Int)
      rw [List.length_append, List.length_singleton, hinv.count_eq]
      push_cast
      rfl

/-- The loop of `main` under the contract of its collaborators: it ends
without a panic and the final state satisfies the invariant. -/
theorem mainLoop_inv {R : Type} [LinearOrderedField R] (comprPage : List Byte → Option Int)
    (hcompr : ∀ d : List Byte, d.length = pageSize → ∃ c, comprPage d = some c)
    (logLut : List R) (hlut : logLut.length = 256) (inputs : List IterInput) :
    ∀ st : MainState,
      (∀ inp ∈ inputs, inp.bytes.length ≤ pageSize ∧ inp.err ≠ ReadErr.other ∧
        ∀ i, i < numHintsToTry → inp.rnd i < 256 - i) →
      MainInv st → ∃ st1, mainLoop comprPage logLut inputs st = some st1 ∧ MainInv st1 := by
  induction inputs with
  | nil => intro st _ hinv; exact ⟨st, rfl, hinv⟩
  | cons inp rest ih =>
    intro st hin hinv
    obtain ⟨hb, herr, hrnd⟩ := hin inp (List.mem_cons_self inp rest)
    obtain ⟨st1, c, hstep, hinv1⟩ :=
      mainStep_inv comprPage hcompr logLut hlut st inp hb herr hrnd hinv
    cases c with
    | false => exact ⟨st1, by simp only [mainLoop, hstep], hinv1⟩
    | true =>
      obtain ⟨st2, hloop, hinv2⟩ := ih st1 (fun x hx => hin x (List.mem_cons_of_mem inp hx)) hinv1
      exact ⟨st2, by simp only [mainLoop, hstep, hloop], hinv2⟩

theorem mainInv_init : MainInv mainInit where
  data_len := List.length_replicate _ _
  good_eq := rfl
  bad_eq := rfl
  count_eq := rfl

/-- C18 (counter consistency): in the loop of `main`, after any number of
processed pages, `goodPredict` is the number of processed pages whose verdict
equals `comprCount <= P/2`, `badPredict` is the number of the others and
`goodPredict + badPredict = pageCount`.  The inputs are those of any number of
iterations; the reader stores at most `P` bytes and reports no error other
than `io.EOF`, the compressor does not fail and the random indices are in
range (otherwise the program panics). -/
theorem main_counter_consistency {R : Type} [LinearOrderedField R]
    (comprPage : List Byte → Option Int)
    (hcompr : ∀ d : List Byte, d.length = pageSize → ∃ c, comprPage d = some c)
    (logLut : List R) (hlut : logLut.length = 256) (inputs : List IterInput)
    (hin : ∀ inp ∈ inputs, inp.bytes.length ≤ pageSize ∧ inp.err ≠ ReadErr.other ∧
      ∀ i, i < 3 → inp.rnd i < 256 - i) :
    ∃ st, mainLoop comprPage logLut inputs mainInit = some st ∧
      st.goodPredict =
        ((st.history.countP (fun p => p.1 == decide (p.2 ≤ 16384 / 2)) : Nat) : Int) ∧
      st.badPredict =
        ((st.history.countP (fun p => !(p.1 == decide (p.2 ≤ 16384 / 2))) : Nat) : Int) ∧
      st.pageCount = ((st.history.length : Nat) : Int) ∧
      st.goodPredict + st.badPredict = st.pageCount := by
  obtain ⟨st, hloop, hinv⟩ := mainLoop_inv comprPage hcompr logLut hlut inputs mainInit hin
    mainInv_init
  refine ⟨st, hloop, hinv.good_eq, hinv.bad_eq, hinv.count_eq, ?_⟩
  have hneg : List.countP (fun p => !agrees p) st.history =
      List.countP (fun a => decide ¬agrees a = true) st.history := by
    congr 1
    funext p
    cases agrees p <;> simp
  rw [hinv.good_eq, hinv.bad_eq, hinv.count_eq,
    List.length_eq_countP_add_countP agrees st.history, hneg]
  push_cast
  rfl

theorem sampleInputs_contract :
    ∀ inp ∈ sampleInputs, inp.bytes.length ≤ pageSize ∧ inp.err ≠ ReadErr.other ∧
      ∀ i, i < 3 → inp.rnd i < 256 - i := by
  intro inp hmem
  rcases List.mem_cons.1 hmem with e | h2
  · rw [e]
    exact ⟨le_of_eq (List.length_replicate _ _), fun h => ReadErr.noConfusion h,
      fun i hi => by show i < 256 - i; omega⟩
  · rw [List.mem_singleton.1 h2]
    exact ⟨Nat.zero_le _, fun h => ReadErr.noConfusion h,
      fun i hi => by show i < 256 - i; omega⟩

/-- Instance of C18: a run over one full page followed by end of input, with a
compressor that always reports 100 bytes. -/
theorem main_counter_consistency_witness :
    ∃ st, mainLoop (fun _ => some 100) (List.replicate 256 (1 : ℚ)) sampleInputs mainInit =
        some st ∧
      st.goodPredict =
        ((st.history.countP (fun p => p.1 == decide (p.2 ≤ 16384 / 2)) : Nat) : Int) ∧
      st.badPredict =
        ((st.history.countP (fun p => !(p.1 == decide (p.2 ≤ 16384 / 2))) : Nat) : Int) ∧
      st.pageCount = ((st.history.length : Nat) : Int) ∧
      st.goodPredict + st.badPredict = st.pageCount :=
  main_counter_consistency (fun _ => some 100) (fun _ _ => ⟨100, rfl⟩)
    (List.replicate 256 (1 : ℚ)) (List.length_replicate _ _) sampleInputs sampleInputs_contract

/-! ## Short reads -/

theorem segEntropy_zeroPage {R : Type} [Field R] (logLut : List R)
    (hlut : logLut.length = 256) (s : Int) (h0 : 0 ≤ s) (h1 : s < 256) :
    segEntropy logLut zeroPage s = some 0 := by
  have hin : (s.toNat + 1) * hintSize ≤ zeroPage.length := by
    unfold zeroPage
    rw [List.length_replicate]
    unfold hintSize pageSize
    omega
  obtain ⟨counts, hgen, hent⟩ := segEntropy_constant logLut hlut zeroPage s.toNat hin 0
    (subSegment_zeroPage s.toNat (by omega))
  rw [Int.toNat_of_nonneg h0] at hgen
  simp only [segEntropy, hgen, hent]

theorem comprPredict_zeroPage {R : Type} [LinearOrderedField R] (logLut : List R)
    (hlut : logLut.length = 256) (rnd : Nat → Nat)
    (hrnd : ∀ i, i < numHintsToTry → rnd i < 256 - i) :
    comprPredict logLut zeroPage rnd = some (true, [0, 0, 0]) := by
  have hres := comprPredict_uniform logLut hlut zeroPage (List.length_replicate _ _) rnd hrnd 0
    (segEntropy_zeroPage logLut hlut)
  rw [hres]
  have h5 : decide ((0 : R) < entrThreshold) = true := by
    rw [decide_eq_true_iff]
    show (0 : R) < 5
    norm_num
  rw [h5]

/-- The buffer after the short read of 100 zero bytes into the zeroed buffer. -/
theorem shortRead_buffer :
    shortRead.bytes ++ mainInit.data.drop shortRead.bytes.length = zeroPage := by
  show List.replicate 100 (0 : Byte) ++
    (List.replicate pageSize (0 : Byte)).drop (List.replicate 100 (0 : Byte)).length = zeroPage
  rw [List.length_replicate, List.drop_replicate, List.append_replicate_replicate]
  rfl

/-- Counterexample to C19 as stated: a read of 100 bytes with a nil error
(`0 < count < P`) does not end the loop; the buffer is compressed and
predicted, `goodPredict` and `pageCount` become 1 and the loop goes on. -/
theorem short_read_is_processed :
    (0 < shortRead.bytes.length ∧ shortRead.bytes.length < pageSize ∧
      shortRead.err = ReadErr.nil) ∧
    ∃ st1, mainStep (fun _ => some 0) (List.replicate 256 (1 : ℚ)) mainInit shortRead =
        some (st1, true) ∧
      mainLoop (fun _ => some 0) (List.replicate 256 (1 : ℚ)) [shortRead] mainInit = some st1 ∧
      st1.pageCount = mainInit.pageCount + 1 ∧ st1.goodPredict = mainInit.goodPredict + 1 ∧
      st1.history = [(true, 0)] := by
  have hlen : shortRead.bytes.length = 100 := List.length_replicate _ _
  refine ⟨⟨by rw [hlen]; decide, by rw [hlen]; decide, rfl⟩, ?_⟩
  have hp : comprPredict (List.replicate 256 (1 : ℚ))
      (shortRead.bytes ++ mainInit.data.drop shortRead.bytes.length) shortRead.rnd =
        some (true, [0, 0, 0]) := by
    rw [shortRead_buffer]
    exact comprPredict_zeroPage _ (List.length_replicate _ _) _
      (fun i hi => by
        have hi3 : i < 3 := hi
        show i < 256 - i
        omega)
  have hstep := mainStep_page (fun _ => some 0) (List.replicate 256 (1 : ℚ)) mainInit shortRead
    (by rw [hlen]; decide) rfl 0 true [0, 0, 0] rfl hp rfl
  obtain ⟨st1, hst1, h1, h2, h3⟩ : ∃ st1,
      mainStep (fun _ => some 0) (List.replicate 256 (1 : ℚ)) mainInit shortRead =
        some (st1, true) ∧
      st1.pageCount = mainInit.pageCount + 1 ∧ st1.goodPredict = mainInit.goodPredict + 1 ∧
      st1.history = [(true, 0)] := ⟨_, hstep, rfl, rfl, rfl⟩
  refine ⟨st1, hst1, ?_, h1, h2, h3⟩
  simp only [mainLoop, hst1]

/-- An iteration that completes after a read with `count > 0` and a nil error
has run `comprPage` and `comprPredict` on the buffer and has counted the page. -/
theorem mainStep_page_inv {R : Type} [LinearOrderedField R]
    (comprPage : List Byte → Option Int) (logLut : List R) (st : MainState) (inp : IterInput)
    (hstop : ¬ (inp.bytes.length = 0 ∨ inp.err = ReadErr.eof))
    (st1 : MainState) (c : Bool) (h : mainStep comprPage logLut st inp = some (st1, c)) :
    ∃ predict comprCount retEntr,
      comprPage (inp.bytes ++ st.data.drop inp.bytes.length) = some comprCount ∧
      comprPredict logLut (inp.bytes ++ st.data.drop inp.bytes.length) inp.rnd =
        some (predict, retEntr) ∧
      st1.pageCount = st.pageCount + 1 ∧
      st1.history = st.history ++ [(predict, comprCount)] := by
  have hstop' : ¬ (((inp.bytes.length : Nat) : Int) = 0 ∨ inp.err = ReadErr.eof) := by
    rintro (h0 | h0)
    · exact hstop (Or.inl (by exact_mod_cast h0))
    · exact hstop (Or.inr h0)
  unfold mainStep at h
  rw [if_neg hstop'] at h
  by_cases hne : inp.err ≠ ReadErr.nil
  · rw [if_pos hne] at h
    exact Option.noConfusion h
  · rw [if_neg hne] at h
    cases hc : comprPage (inp.bytes ++ st.data.drop inp.bytes.length) with
    | none =>
      simp only [hc] at h
      exact Option.noConfusion h
    | some comprCount =>
      cases hp : comprPredict logLut (inp.bytes ++ st.data.drop inp.bytes.length) inp.rnd with
      | none =>
        simp only [hc, hp] at h
        exact Option.noConfusion h
      | some pr =>
        obtain ⟨predict, retEntr⟩ := pr
        simp only [hc, hp] at h
        refine ⟨predict, comprCount, retEntr, rfl, rfl, ?_⟩
        split at h
        · exact Option.noConfusion h
        · have hinj := Prod.mk.inj (Option.some.inj h)
          rw [← hinj.1]
          exact ⟨rfl, rfl⟩

/-- C19 as amended: the loop of `main` takes a read for end of input exactly
when it returns `count == 0` or `io.EOF`; it then stops without running
compression or prediction (whatever these would do) and without changing
`goodPredict`, `badPredict` or `pageCount`.  After any other read, in
particular a short one with a nil error, an iteration that completes has
compressed and predicted the buffer and has incremented `pageCount`. -/
theorem main_end_of_input {R : Type} [LinearOrderedField R]
    (comprPage : List Byte → Option Int) (logLut : List R) (st : MainState) (inp : IterInput)
    (rest : List IterInput) :
    ((inp.bytes.length = 0 ∨ inp.err = ReadErr.eof) →
      mainLoop comprPage logLut (inp :: rest) st =
        some ⟨inp.bytes ++ st.data.drop inp.bytes.length, st.goodPredict, st.badPredict,
          st.pageCount, st.history⟩) ∧
    (¬ (inp.bytes.length = 0 ∨ inp.err = ReadErr.eof) →
      ∀ st1 c, mainStep comprPage logLut st inp = some (st1, c) →
        st1.pageCount = st.pageCount + 1 ∧
        ∃ predict comprCount retEntr,
          comprPage (inp.bytes ++ st.data.drop inp.bytes.length) = some comprCount ∧
          comprPredict logLut (inp.bytes ++ st.data.drop inp.bytes.length) inp.rnd =
            some (predict, retEntr) ∧
          st1.history = st.history ++ [(predict, comprCount)]) := by
  constructor
  · intro hstop
    have hstep := mainStep_stop comprPage logLut st inp hstop
    simp only [mainLoop, hstep]
  · intro hstop st1 c h
    obtain ⟨predict, comprCount, retEntr, hc, hp, hcount, hhist⟩ :=
      mainStep_page_inv comprPage logLut st inp hstop st1 c h
    exact ⟨hcount, predict, comprCount, retEntr, hc, hp, hhist⟩

/-- Instance of amended C19: a read of 7 bytes that comes with `io.EOF` ends
the loop although more input follows, even with a compressor and a table
that would make the iteration panic. -/
theorem main_end_of_input_witness :
    mainLoop (fun _ => none) ([] : List ℚ) (⟨List.replicate 7 0, ReadErr.eof, fun i => i⟩ ::
        sampleInputs) mainInit =
      some ⟨List.replicate 7 0 ++ mainInit.data.drop (List.replicate 7 (0 : Byte)).length,
        mainInit.goodPredict, mainInit.badPredict, mainInit.pageCount, mainInit.history⟩ :=
  (main_end_of_input (fun _ => none) ([] : List ℚ) mainInit
    ⟨List.replicate 7 0, ReadErr.eof, fun i => i⟩ sampleInputs).1 (Or.inr rfl)

/-! ## Entropy and the number of buckets -/

/-- Bound of one bucket term, from `log y ≤ y - 1` at `y = 64 / (x * n)`. -/
theorem bucket_term_le (x n : ℝ) (hx : 1 ≤ x) (hn : 1 ≤ n) :
    x * (6 - Real.logb 2 x) ≤ x * Real.logb 2 n + (64 / n - x) / Real.log 2 := by
  have hx0 : 0 < x := by linarith
  have hn0 : 0 < n := by linarith
  have hL : 0 < Real.log 2 := Real.log_pos (by norm_num)
  have h64 : Real.logb 2 (64 : ℝ) = 6 := by
    have h : (64 : ℝ) = 2 ^ (6 : ℕ) := by norm_num
    rw [h, Real.logb_pow]
    simp
  have hy : 0 < 64 / (x * n) := by positivity
  have hlog : Real.logb 2 (64 / (x * n)) = 6 - Real.logb 2 x - Real.logb 2 n := by
    rw [Real.logb_div (by norm_num) (by positivity), Real.logb_mul (by positivity) (by positivity),
      h64]
    ring
  have hle : Real.logb 2 (64 / (x * n)) ≤ (64 / (x * n) - 1) / Real.log 2 := by
    unfold Real.logb
    exact div_le_div_of_nonneg_right (Real.log_le_sub_one_of_pos hy) hL.le
  rw [hlog] at hle
  have hmul := mul_le_mul_of_nonneg_left hle hx0.le
  have heq : x * ((64 / (x * n) - 1) / Real.log 2) = (64 / n - x) / Real.log 2 := by
    field_simp
    ring
  rw [heq] at hmul
  linarith

/-- The entropy of `n` positive counts that add up to 64 is at most `log2 n`. -/
theorem entropy_sum_le_logb (c : Nat → Nat) (n : Nat) (hn : 0 < n)
    (hpos : ∀ k, k < n → 1 ≤ c k) (hsum : (∑ k ∈ Finset.range n, c k) = 64) :
    (-1) * (∑ k ∈ Finset.range n, (c k : ℝ) * (Real.logb 2 (c k : ℝ) - 6)) / 64 ≤
      Real.logb 2 (n : ℝ) := by
  have hn1 : (1 : ℝ) ≤ (n : ℝ) := by exact_mod_cast hn
  have hL : 0 < Real.log 2 := Real.log_pos (by norm_num)
  have hsumR : (∑ k ∈ Finset.range n, (c k : ℝ)) = 64 := by
    have := congrArg (fun m : ℕ => (m : ℝ)) hsum
    simpa using this
  have hterm : ∀ k ∈ Finset.range n, (c k : ℝ) * (6 - Real.logb 2 (c k : ℝ)) ≤
      (c k : ℝ) * Real.logb 2 (n : ℝ) + (64 / (n : ℝ) - (c k : ℝ)) / Real.log 2 := by
    intro k hk
    exact bucket_term_le _ _ (by exact_mod_cast hpos k (Finset.mem_range.1 hk)) hn1
  have hs := Finset.sum_le_sum hterm
  rw [Finset.sum_add_distrib, ← Finset.sum_mul, ← Finset.sum_div, Finset.sum_sub_distrib,
    hsumR, Finset.sum_const, Finset.card_range] at hs
  have hz : ((n : ℕ) • (64 / (n : ℝ)) - 64) / Real.log 2 = 0 := by
    rw [nsmul_eq_mul]
    have : (n : ℝ) * (64 / (n : ℝ)) = 64 := by field_simp
    rw [this]
    simp
  rw [hz, add_zero] at hs
  have hneg : (-1) * (∑ k ∈ Finset.range n, (c k : ℝ) * (Real.logb 2 (c k : ℝ) - 6)) =
      ∑ k ∈ Finset.range n, (c k : ℝ) * (6 - Real.logb 2 (c k : ℝ)) := by
    rw [Finset.mul_sum]
    apply Finset.sum_congr rfl
    intro k _
    ring
  rw [hneg]
  rw [div_le_iff₀ (by norm_num : (0 : ℝ) < 64)]
  linarith

theorem logb_two_31_lt : Real.logb 2 (31 : ℝ) < 5 := by
  have h32 : Real.logb 2 (32 : ℝ) = 5 := by
    have h : (32 : ℝ) = 2 ^ (5 : ℕ) := by norm_num
    rw [h, Real.logb_pow]
    simp
  rw [← h32]
  exact Real.logb_lt_logb (by norm_num) (by norm_num) (by norm_num)

/-- C20 (tighter entropy bound): for every in-range sub-segment the entropy
`getEntropy (genHist data segNum)`, with the table of exact real logarithms,
is at most `log2 B`, where `B` is the number of distinct byte values of the
sub-segment; hence a sub-segment with at most 31 distinct byte values has
entropy strictly below the threshold `5.0`, and the iteration of
`comprPredict` that draws it increments `succ`. -/
theorem entropy_le_log_buckets (data : List Byte) (segNum : Nat)
    (h : (segNum + 1) * 64 ≤ data.length) :
    ∃ counts B H, genHist data (segNum : Int) = some (counts, B) ∧
      B = ((subSegment data segNum).toFinset.card : Int) ∧
      getEntropy (initLogLut Real.log (logLutZero : List ℝ)) counts B = some H ∧
      H ≤ Real.logb 2 ((subSegment data segNum).toFinset.card : ℝ) ∧
      ((subSegment data segNum).toFinset.card ≤ 31 →
        H < entrThreshold ∧
        ∀ (st : PredState ℝ) (rnd : Nat → Nat) (i : Nat) (rest : List Int),
          getRandomSeg st.hintArr (rnd i) = some ((segNum : Int), rest) →
          i < st.retEntr.length →
          ∃ st1, comprPredictStep (initLogLut Real.log (logLutZero : List ℝ)) data rnd st i =
            some st1 ∧ st1.succ = st.succ + 1) := by
  obtain ⟨counts, hgen, hent⟩ := segEntropy_real data segNum h
  have hseg := length_subSegment data segNum h
  have hcard := length_firstAppear_eq_card (subSegment data segNum)
  have hpos : 0 < (firstAppear (subSegment data segNum)).length := by
    have hne : subSegment data segNum ≠ [] := by
      intro e
      rw [e] at hseg
      exact absurd hseg (by decide)
    obtain ⟨a, ha⟩ := List.exists_mem_of_ne_nil _ hne
    exact List.length_pos_of_mem ((mem_firstAppear _ a).2 ha)
  have hsum : (∑ k ∈ Finset.range (firstAppear (subSegment data segNum)).length,
      histAt (subSegment data segNum) k) = 64 := by
    rw [sum_histAt, hseg]
    rfl
  have hle := entropy_sum_le_logb (histAt (subSegment data segNum))
    (firstAppear (subSegment data segNum)).length hpos
    (fun k hk => (histAt_range _ hseg k hk).1) hsum
  generalize hH : (-1) * (∑ k ∈ Finset.range (firstAppear (subSegment data segNum)).length,
      ((histAt (subSegment data segNum) k : Nat) : ℝ) *
        (Real.logb 2 ((histAt (subSegment data segNum) k : Nat) : ℝ) - 6)) / 64 = H at hent hle
  rw [hcard] at hle hpos hgen hent
  refine ⟨counts, _, H, hgen, rfl, hent, hle, ?_⟩
  intro h31
  have hlt : H < (entrThreshold : ℝ) := by
    have h1 : Real.logb 2 ((subSegment data segNum).toFinset.card : ℝ) ≤ Real.logb 2 31 :=
      Real.logb_le_logb_of_le (by norm_num) (by exact_mod_cast hpos) (by exact_mod_cast h31)
    have h2 := logb_two_31_lt
    show H < (5 : ℝ)
    linarith
  refine ⟨hlt, ?_⟩
  intro st rnd i rest hget hi
  have hset : setIdx st.retEntr (i : Int) H = some (st.retEntr.set i H) :=
    setIdx_natCast st.retEntr i H hi
  refine ⟨⟨st.retEntr.set i H, rest, if H < entrThreshold then st.succ + 1 else st.succ⟩,
    by simp only [comprPredictStep, hget, hgen, hent, hset], ?_⟩
  show (if H < (entrThreshold : ℝ) then st.succ + 1 else st.succ) = st.succ + 1
  rw [if_pos hlt]

/-- Instance of C20 on the second sub-segment of `sampleData`. -/
theorem entropy_le_log_buckets_witness :
    ∃ counts B H, genHist sampleData ((1 : Nat) : Int) = some (counts, B) ∧
      B = ((subSegment sampleData 1).toFinset.card : Int) ∧
      getEntropy (initLogLut Real.log (logLutZero : List ℝ)) counts B = some H ∧
      H ≤ Real.logb 2 ((subSegment sampleData 1).toFinset.card : ℝ) ∧
      ((subSegment sampleData 1).toFinset.card ≤ 31 →
        H < entrThreshold ∧
        ∀ (st : PredState ℝ) (rnd : Nat → Nat) (i : Nat) (rest : List Int),
          getRandomSeg st.hintArr (rnd i) = some (((1 : Nat) : Int), rest) →
          i < st.retEntr.length →
          ∃ st1, comprPredictStep (initLogLut Real.log (logLutZero : List ℝ)) sampleData rnd
            st i = some st1 ∧ st1.succ = st.succ + 1) :=
  entropy_le_log_buckets sampleData 1 (by rw [length_sampleData])

end Compr
